import Mathlib

/-!
Day1 (Advent of Code 2022): group sums, their maximum and their top three

A shallow embedding of `src/Day1/Day1.cxx`.

* the input file is `Option (List Char)`: `none` when `myfile.is_open()` is false,
  otherwise the characters of the file;
* `getline` cuts the text into lines (`getlines`);
* the read loop (`readLoop`) folds the lines into the vector `elves` and the
  accumulator `sum`; `stoi` may throw, which ends the loop with the state it
  had reached;
* `int` is a 32-bit two's complement integer: additions are reduced by `wrap32`;
* `size_t` arithmetic is unsigned 64-bit (`sizeSub`), `vector::at` is bounds
  checked (`vecAt`);
* `report` is the sort and the two print statements; standard output is kept
  as the list of lines completed by `endl` plus the text inserted since.
-/

namespace Aoc

/-! ## Machine integers -/

/-- Smallest value of a 32-bit `int`. -/
def INT_MIN : Int := -2147483648

/-- Largest value of a 32-bit `int`. -/
def INT_MAX : Int := 2147483647

/-- Values an `int` can hold. -/
def inIntRange (x : Int) : Prop := INT_MIN ≤ x ∧ x ≤ INT_MAX

instance (x : Int) : Decidable (inIntRange x) := by
  unfold inIntRange; exact inferInstance

/-- Reduction of an exact integer to the 32-bit two's complement value with
the same residue modulo `2^32`: what `int` addition leaves in the register. -/
def wrap32 (x : Int) : Int := (x + 2147483648) % 4294967296 - 2147483648

/-- Subtraction `sz - i` in `size_t` (unsigned 64-bit): a difference that
would be negative wraps around by `2^64`. -/
def sizeSub (sz i : Nat) : Nat :=
  if i ≤ sz then sz - i else 18446744073709551616 - (i - sz)

/-! ## Exceptions -/

/-- The exceptions that can leave `Day1`. `invalid_argument` and
`out_of_range` are thrown by `std::stoi`, `vector_range` is the
`std::out_of_range` thrown by `vector::at`. -/
inductive Failure where
  | invalid_argument
  | out_of_range
  | vector_range
  deriving DecidableEq, Repr

/-! ## `std::stoi` -/

/-- The C locale `isspace`: space, `\t`, `\n`, `\v`, `\f`, `\r`. -/
def isspace (c : Char) : Bool :=
  c == ' ' || c == '\t' || c == '\n' || c == Char.ofNat 11 || c == Char.ofNat 12 || c == '\r'

/-- Decimal digit test. -/
def isdigit (c : Char) : Bool := '0' ≤ c && c ≤ '9'

/-- Value of a decimal digit character. -/
def digitVal (c : Char) : Nat := c.toNat - '0'.toNat

/-- Value of a run of decimal digits read left to right, starting from `acc`. -/
def digitsVal (acc : Nat) : List Char → Nat
  | [] => acc
  | c :: cs => digitsVal (acc * 10 + digitVal c) cs

/-- The sign accepted by `strtol` in front of the digits: `true` for `-`.
Returns the sign and the characters after it. -/
def takeSign : List Char → Bool × List Char
  | '-' :: cs => (true, cs)
  | '+' :: cs => (false, cs)
  | cs => (false, cs)

/-- The function `std::stoi(str)` with its defaults (`pos = nullptr`, base 10), on
the characters of `str`: skip leading white space, read an optional sign,
then the longest run of decimal digits; whatever follows the digits is
ignored. Without a digit there is no conversion (`invalid_argument`); a value
that does not fit in `int` is `out_of_range`. -/
def stoiChars (cs : List Char) : Except Failure Int :=
  let (neg, rest) := takeSign (cs.dropWhile isspace)
  let ds := rest.takeWhile isdigit
  if ds.isEmpty then Except.error Failure.invalid_argument
  else
    let n : Int := digitsVal 0 ds
    let v : Int := if neg then -n else n
    if INT_MIN ≤ v ∧ v ≤ INT_MAX then Except.ok v else Except.error Failure.out_of_range

/-- The call `stoi(line)`. -/
def stoi (line : String) : Except Failure Int := stoiChars line.data

/-! ## `getline` -/

/-- The lines successive `getline(myfile, line)` calls deliver: each call
extracts up to the next `\n` (which it discards); at end of file a call that
extracted characters still succeeds, a call that extracted nothing fails and
ends the loop. `cur` holds the characters of the line being read, last first. -/
def getlinesAux : List Char → List Char → List String
  | [], [] => []
  | [], c :: cur => [String.mk (c :: cur).reverse]
  | c :: rest, cur =>
    if c = '\n' then String.mk cur.reverse :: getlinesAux rest []
    else getlinesAux rest (c :: cur)

/-- All lines of a file, in order. -/
def getlines (text : List Char) : List String := getlinesAux text []

/-! ## The read loop -/

/-- The two variables the read loop updates. -/
structure LoopState where
  elves : List Int
  sum : Int
  deriving DecidableEq, Repr

/-- State at the declaration of the variables: `vector<int> elves; int sum{0};`. -/
def LoopState.init : LoopState := ⟨[], 0⟩

/-- The `while (getline(myfile, line))` loop over the remaining lines. An
empty line pushes `sum` and resets it; any other line adds `stoi(line)`. The
result is the state when the loop stops and the exception that stopped it,
if any. -/
def readLoop : List String → LoopState → LoopState × Option Failure
  | [], st => (st, none)
  | line :: rest, st =>
    if line.length == 0 then readLoop rest ⟨st.elves ++ [st.sum], 0⟩
    else
      match stoi line with
      | Except.ok v => readLoop rest ⟨st.elves, wrap32 (st.sum + v)⟩
      | Except.error e => (st, some e)

/-- The group sum list: `elves` when the read loop stops. -/
def groupSums (lines : List String) : List Int := (readLoop lines LoopState.init).1.elves

/-! ## The report -/

/-- The call `std::sort(elves.begin(), elves.end())`: ascending order. -/
def sort (elves : List Int) : List Int := elves.insertionSort (fun a b => a ≤ b)

/-- The call `v.at(idx)`: bounds-checked element access. -/
def vecAt (v : List Int) (idx : Nat) : Except Failure Int :=
  match v.get? idx with
  | some x => Except.ok x
  | none => Except.error Failure.vector_range

/-- The loop `for (int i = 1; i < 4; i++) highest_3_total += elves.at(elves.size()-i);`
over the remaining values of `i`. -/
def sumLoop (v : List Int) : List Nat → Int → Except Failure Int
  | [], total => Except.ok total
  | i :: is, total =>
    match vecAt v (sizeSub v.length i) with
    | Except.ok x => sumLoop v is (wrap32 (total + x))
    | Except.error e => Except.error e

/-- Standard output and termination of a run. `lines` are the lines
completed by `endl`, in order; `pending` is the text inserted after the last
`endl`; `err` is the exception that left `Day1`, if any. -/
structure Run where
  lines : List String
  pending : String
  err : Option Failure
  deriving DecidableEq, Repr

/-- Decimal rendering of an `int` by `operator<<`. -/
def showInt (x : Int) : String := toString x

/-- Everything after the `if`/`else` of `Day1`: sort, print Part 1, sum the
last three, print Part 2. `out` holds the lines printed before. In
`cout << "Part 1: " << elves.at(...) << endl` the label is inserted before
`at` is evaluated. -/
def report (out : List String) (elves : List Int) : Run :=
  let v := sort elves
  match vecAt v (sizeSub v.length 1) with
  | Except.error e => ⟨out, "Part 1: ", some e⟩
  | Except.ok m =>
    let out1 := out ++ ["Part 1: " ++ showInt m]
    match sumLoop v [1, 2, 3] 0 with
    | Except.error e => ⟨out1, "", some e⟩
    | Except.ok t => ⟨out1 ++ ["Part 2: " ++ showInt t], "", none⟩

/-- The function `Day1()`, as a function of the file it opens. -/
def Day1 (file : Option (List Char)) : Run :=
  match file with
  | some text =>
    match readLoop (getlines text) LoopState.init with
    | (_, some e) => ⟨[], "", some e⟩
    | (st, none) => report [] st.elves
  | none => report ["Unable to open file"] []

/-! ## Vocabulary of the specification -/

/-- Value of a run of decimal digits in positional notation: each digit
weighs ten to the number of digits after it. -/
def decimalValue : List Char → Nat
  | [] => 0
  | c :: cs => digitVal c * 10 ^ cs.length + decimalValue cs

/-- A base-10 integer: an optional sign followed by one or more decimal
digits and nothing else. -/
def isInteger (cs : List Char) : Bool :=
  match cs with
  | [] => false
  | c :: rest =>
    if c = '-' ∨ c = '+' then !rest.isEmpty && rest.all isdigit
    else (c :: rest).all isdigit

/-- The integer a base-10 integer denotes. -/
def integerValue (cs : List Char) : Int :=
  match cs with
  | [] => 0
  | c :: rest =>
    if c = '-' then -(decimalValue rest : Int)
    else if c = '+' then (decimalValue rest : Int)
    else (decimalValue (c :: rest) : Int)

/-- A line whose entire content is a base-10 integer. -/
def isIntLine (line : String) : Bool := isInteger line.data

/-- The integer on an integer line. -/
def lineValue (line : String) : Int := integerValue line.data

/-- The characters `cs` begin with the integer `v`: optional white space, an
optional sign, one or more decimal digits `ds`, then `tail`, which does not
begin with a digit. -/
def IntPrefix (cs : List Char) (v : Int) : Prop :=
  ∃ ws sgn ds tail, cs = ws ++ (sgn ++ (ds ++ tail)) ∧ (∀ c ∈ ws, isspace c = true) ∧
    (sgn = [] ∨ sgn = ['-'] ∨ sgn = ['+']) ∧ ds ≠ [] ∧ (∀ c ∈ ds, isdigit c = true) ∧
    (∀ c, tail.head? = some c → isdigit c = false) ∧
    v = (if sgn = ['-'] then -(decimalValue ds : Int) else (decimalValue ds : Int))

/-- The groups of an input: for each empty line, the run of non-empty lines
between the previous empty line (or the start) and it. Lines after the last
empty line belong to no group. -/
def groupsOf : List String → List (List String)
  | [] => []
  | l :: rest =>
    if l = "" then [] :: groupsOf rest
    else
      match groupsOf rest with
      | [] => []
      | g :: gs => (l :: g) :: gs

/-- Arithmetic sum of the integers on the lines of a group. -/
def groupSum (g : List String) : Int := (g.map lineValue).sum

/-- The input up to and including its last empty line; empty when there is
no empty line. -/
def uptoLastEmpty (lines : List String) : List String :=
  lines.rdropWhile (fun l => l != "")

/-- The lines after the last empty line of an input: the group in progress.
The whole input when there is no empty line. -/
def afterLastEmpty (lines : List String) : List String :=
  lines.rtakeWhile (fun l => l != "")

/-- The three largest entries of a list, largest first (fewer when the list
has fewer than three entries). Equal values at different positions are
separate entries. -/
def topThree (l : List Int) : List Int := ((sort l).reverse).take 3

/-- The entry the read loop commits for a group: the running sum after the
lines of the group, read from a running sum of zero. -/
def blockSum (g : List String) : Int := (readLoop g LoopState.init).1.sum

/-! ## Facts about the machine arithmetic -/

theorem wrap32_of_inIntRange {x : Int} (h : inIntRange x) : wrap32 x = x := by
  unfold inIntRange INT_MIN INT_MAX at h
  unfold wrap32
  omega

theorem wrap32_inIntRange (x : Int) : inIntRange (wrap32 x) := by
  unfold inIntRange INT_MIN INT_MAX wrap32
  omega

theorem wrap32_add_left (x y : Int) : wrap32 (wrap32 x + y) = wrap32 (x + y) := by
  unfold wrap32
  omega

theorem sizeSub_of_le {sz i : Nat} (h : i ≤ sz) : sizeSub sz i = sz - i := by
  simp [sizeSub, h]

theorem sizeSub_eq_mod {sz i : Nat} (hsz : sz < 18446744073709551616)
    (hi : i ≤ 18446744073709551616) :
    sizeSub sz i = (sz + 18446744073709551616 - i) % 18446744073709551616 := by
  unfold sizeSub
  split <;> omega

/-! ## Facts about `vector::at` and `std::sort` -/

theorem vecAt_of_lt {v : List Int} {idx : Nat} (h : idx < v.length) :
    vecAt v idx = Except.ok (v.get ⟨idx, h⟩) := by
  have e : v.get? idx = some (v.get ⟨idx, h⟩) := List.get?_eq_get h
  simp only [vecAt, e]

theorem vecAt_of_le {v : List Int} {idx : Nat} (h : v.length ≤ idx) :
    vecAt v idx = Except.error Failure.vector_range := by
  have e : v.get? idx = none := List.get?_eq_none.mpr h
  simp only [vecAt, e]

theorem sort_perm (elves : List Int) : (sort elves).Perm elves :=
  List.perm_insertionSort _ elves

theorem sort_sorted (elves : List Int) : (sort elves).Sorted (fun a b => a ≤ b) :=
  List.sorted_insertionSort _ elves

theorem sort_length (elves : List Int) : (sort elves).length = elves.length :=
  (sort_perm elves).length_eq

theorem vecAt_append_right (p q : List Int) (k : Nat) :
    vecAt (p ++ q) (p.length + k) = vecAt q k := by
  have e : (p ++ q).get? (p.length + k) = q.get? k := by
    simp [List.getElem?_append_right]
  simp only [vecAt, e]

/-- A list with at least `k` entries splits into a front part and its last `k` entries. -/
theorem exists_split_last (v : List Int) (k : Nat) (h : k ≤ v.length) :
    ∃ p q, v = p ++ q ∧ q.length = k :=
  ⟨v.take (v.length - k), v.drop (v.length - k), (List.take_append_drop _ v).symm, by
    simp only [List.length_drop]; omega⟩

/-- The three reads of the summing loop on a vector ending in `c, b, a`. -/
theorem sumLoop_snoc3 (p : List Int) (c b a : Int) :
    sumLoop (p ++ [c, b, a]) [1, 2, 3] 0 = Except.ok (wrap32 (a + b + c)) := by
  have e1 : sizeSub (p ++ [c, b, a]).length 1 = p.length + 2 := by
    simp [sizeSub]
  have e2 : sizeSub (p ++ [c, b, a]).length 2 = p.length + 1 := by
    simp [sizeSub]
  have e3 : sizeSub (p ++ [c, b, a]).length 3 = p.length + 0 := by
    simp [sizeSub]
  simp only [sumLoop, e1, e2, e3, vecAt_append_right]
  simp only [vecAt, List.get?, zero_add, wrap32_add_left]

/-- The read of the last element on a vector ending in `a`. -/
theorem vecAt_last_snoc (p : List Int) (a : Int) :
    vecAt (p ++ [a]) (sizeSub (p ++ [a]).length 1) = Except.ok a := by
  have e1 : sizeSub (p ++ [a]).length 1 = p.length + 0 := by
    simp [sizeSub]
  rw [e1, vecAt_append_right]
  rfl

/-- The report on a list whose sorted form ends in `c, b, a`. -/
theorem report_of_sort_snoc3 (out : List String) (elves p : List Int) (c b a : Int)
    (h : sort elves = p ++ [c, b, a]) :
    report out elves =
      ⟨out ++ ["Part 1: " ++ showInt a, "Part 2: " ++ showInt (wrap32 (a + b + c))], "", none⟩ := by
  have hl : vecAt (p ++ [c, b, a]) (sizeSub (p ++ [c, b, a]).length 1) = Except.ok a := by
    have := vecAt_last_snoc (p ++ [c, b]) a
    simpa using this
  simp only [report, h, hl, sumLoop_snoc3, List.append_assoc, List.singleton_append]

/-- The sorted form of a list with at least three entries ends in its three
largest entries, smallest of them first. -/
theorem sort_snoc3 (elves : List Int) (h : 3 ≤ elves.length) :
    ∃ p c b a, sort elves = p ++ [c, b, a] ∧ c ≤ b ∧ b ≤ a ∧ (∀ x ∈ p, x ≤ c) := by
  obtain ⟨p, q, hv, hq⟩ := exists_split_last (sort elves) 3 (by rw [sort_length]; exact h)
  obtain ⟨c, b, a, rfl⟩ := List.length_eq_three.mp hq
  have hs := sort_sorted elves
  rw [hv] at hs
  have hs2 := List.pairwise_append.mp hs
  refine ⟨p, c, b, a, hv, ?_, ?_, ?_⟩
  · have := hs2.2.1
    simp only [List.pairwise_cons] at this
    exact this.1 b (by simp)
  · have := hs2.2.1
    simp only [List.pairwise_cons] at this
    exact this.2.1 a (by simp)
  · intro x hx
    exact hs2.2.2 x hx c (by simp)

/-- The sorted form of a non-empty list ends in its largest entry. -/
theorem sort_snoc1 (elves : List Int) (h : 1 ≤ elves.length) :
    ∃ p a, sort elves = p ++ [a] ∧ (∀ x ∈ p, x ≤ a) := by
  obtain ⟨p, q, hv, hq⟩ := exists_split_last (sort elves) 1 (by rw [sort_length]; exact h)
  obtain ⟨a, rfl⟩ := List.length_eq_one.mp hq
  have hs := sort_sorted elves
  rw [hv] at hs
  have hs2 := List.pairwise_append.mp hs
  exact ⟨p, a, hv, fun x hx => hs2.2.2 x hx a (by simp)⟩


/-! ## Facts about characters and `stoi` -/

theorem isdigit_not_isspace {c : Char} (h : isdigit c = true) : isspace c = false := by
  cases hs : isspace c with
  | false => rfl
  | true =>
    exfalso
    simp only [isspace, Bool.or_eq_true, beq_iff_eq] at hs
    rcases hs with ((((hs | hs) | hs) | hs) | hs) | hs <;> (subst hs; revert h; decide)

theorem isdigit_ne_minus {c : Char} (h : isdigit c = true) : c ≠ '-' := by
  intro hc; subst hc; revert h; decide

theorem isdigit_ne_plus {c : Char} (h : isdigit c = true) : c ≠ '+' := by
  intro hc; subst hc; revert h; decide

theorem decimalValue_nil : decimalValue [] = 0 := rfl

theorem decimalValue_cons (c : Char) (cs : List Char) :
    decimalValue (c :: cs) = digitVal c * 10 ^ cs.length + decimalValue cs := rfl

theorem digitsVal_nil (acc : Nat) : digitsVal acc [] = acc := rfl

theorem digitsVal_cons (acc : Nat) (c : Char) (cs : List Char) :
    digitsVal acc (c :: cs) = digitsVal (acc * 10 + digitVal c) cs := rfl

theorem digitsVal_eq (ds : List Char) (acc : Nat) :
    digitsVal acc ds = acc * 10 ^ ds.length + decimalValue ds := by
  induction ds generalizing acc with
  | nil => rw [digitsVal_nil, decimalValue_nil, List.length_nil, pow_zero, mul_one, add_zero]
  | cons c cs ih =>
    rw [digitsVal_cons, decimalValue_cons, ih, List.length_cons, pow_succ]
    generalize digitVal c = d
    generalize decimalValue cs = r
    generalize 10 ^ cs.length = q
    ring

theorem digitsVal_zero (ds : List Char) : digitsVal 0 ds = decimalValue ds := by
  rw [digitsVal_eq, zero_mul, zero_add]

theorem takeWhile_isdigit_append (ds tail : List Char) (hds : ∀ c ∈ ds, isdigit c = true)
    (ht : ∀ c, tail.head? = some c → isdigit c = false) :
    (ds ++ tail).takeWhile isdigit = ds := by
  rw [List.takeWhile_append_of_pos hds]
  cases tail with
  | nil => simp
  | cons t ts =>
    have := ht t rfl
    simp [List.takeWhile_cons, this]

theorem takeSign_digits (ds tail : List Char) (hne : ds ≠ [])
    (hds : ∀ c ∈ ds, isdigit c = true) :
    takeSign (['-'] ++ (ds ++ tail)) = (true, ds ++ tail) ∧
    takeSign (['+'] ++ (ds ++ tail)) = (false, ds ++ tail) ∧
    takeSign (ds ++ tail) = (false, ds ++ tail) := by
  refine ⟨rfl, rfl, ?_⟩
  cases ds with
  | nil => exact absurd rfl hne
  | cons d ds =>
    have hd := hds d (by simp)
    have h1 := isdigit_ne_minus hd
    have h2 := isdigit_ne_plus hd
    simp only [List.cons_append]
    unfold takeSign
    split
    · rename_i heq; simp at heq; exact absurd heq.1 h1
    · rename_i heq; simp at heq; exact absurd heq.1 h2
    · rfl

theorem dropWhile_isspace_front (ws sgn ds tail : List Char)
    (hws : ∀ c ∈ ws, isspace c = true) (hsgn : sgn = [] ∨ sgn = ['-'] ∨ sgn = ['+'])
    (hne : ds ≠ []) (hds : ∀ c ∈ ds, isdigit c = true) :
    (ws ++ (sgn ++ (ds ++ tail))).dropWhile isspace = sgn ++ (ds ++ tail) := by
  rw [List.dropWhile_append_of_pos hws]
  rcases hsgn with h | h | h
  · subst h
    cases ds with
    | nil => exact absurd rfl hne
    | cons d ds =>
      have hd := isdigit_not_isspace (hds d (by simp))
      simp [List.dropWhile_cons, hd]
  · subst h; rfl
  · subst h; rfl

/-- What `stoi` returns on characters that begin with an integer. -/
theorem stoiChars_of_intPrefix {cs : List Char} {v : Int} (h : IntPrefix cs v) :
    stoiChars cs = if inIntRange v then Except.ok v else Except.error Failure.out_of_range := by
  obtain ⟨ws, sgn, ds, tail, rfl, hws, hsgn, hne, hds, ht, rfl⟩ := h
  have htw := takeWhile_isdigit_append ds tail hds ht
  have hts := takeSign_digits ds tail hne hds
  have hemp : ds.isEmpty = false := by
    cases ds with
    | nil => exact absurd rfl hne
    | cons _ _ => rfl
  unfold stoiChars
  rw [dropWhile_isspace_front ws sgn ds tail hws hsgn hne hds]
  rcases hsgn with h | h | h
  · subst h
    simp only [List.nil_append, hts.2.2, htw, hemp, digitsVal_zero, inIntRange]
    simp
  · subst h
    simp only [hts.1, htw, hemp, digitsVal_zero, inIntRange]
    simp
  · subst h
    simp only [hts.2.1, htw, hemp, digitsVal_zero, inIntRange]
    simp

theorem takeSign_spec (xs : List Char) :
    ∃ sgn, xs = sgn ++ (takeSign xs).2 ∧ (sgn = [] ∨ sgn = ['-'] ∨ sgn = ['+']) ∧
      ((takeSign xs).1 = true ↔ sgn = ['-']) := by
  unfold takeSign
  split
  · exact ⟨['-'], rfl, Or.inr (Or.inl rfl), by simp⟩
  · exact ⟨['+'], rfl, Or.inr (Or.inr rfl), by simp⟩
  · exact ⟨[], rfl, Or.inl rfl, by simp⟩

theorem head_dropWhile_isdigit (xs : List Char) (c : Char)
    (h : (xs.dropWhile isdigit).head? = some c) : isdigit c = false := by
  have := List.head?_dropWhile_not isdigit xs
  rw [h] at this
  exact this

/-- Whenever `stoi` does not throw `invalid_argument`, the characters begin
with an integer. -/
theorem intPrefix_of_stoiChars {cs : List Char}
    (h : stoiChars cs ≠ Except.error Failure.invalid_argument) : ∃ v, IntPrefix cs v := by
  obtain ⟨sgn, hx, hsgn, _⟩ := takeSign_spec (cs.dropWhile isspace)
  have hne : ((takeSign (cs.dropWhile isspace)).2.takeWhile isdigit) ≠ [] := by
    intro he
    apply h
    unfold stoiChars
    simp only [he, List.isEmpty_nil, if_true]
  refine ⟨_, cs.takeWhile isspace, sgn, (takeSign (cs.dropWhile isspace)).2.takeWhile isdigit,
    (takeSign (cs.dropWhile isspace)).2.dropWhile isdigit, ?_, ?_, hsgn, hne, ?_, ?_, rfl⟩
  · rw [List.takeWhile_append_dropWhile, ← hx, List.takeWhile_append_dropWhile]
  · intro c hc
    exact List.mem_takeWhile_imp hc
  · intro c hc
    exact List.mem_takeWhile_imp hc
  · intro c hc
    exact head_dropWhile_isdigit _ c hc

/-- A base-10 integer begins with (and is) the integer it denotes. -/
theorem intPrefix_of_isInteger {cs : List Char} (h : isInteger cs = true) :
    IntPrefix cs (integerValue cs) := by
  cases cs with
  | nil => simp [isInteger] at h
  | cons c rest =>
    by_cases hm : c = '-'
    · subst hm
      have hr : rest ≠ [] ∧ ∀ x ∈ rest, isdigit x = true := by
        simpa [isInteger, List.isEmpty_iff] using h
      exact ⟨[], ['-'], rest, [], by simp, by simp, Or.inr (Or.inl rfl), hr.1, hr.2,
        by simp, by simp [integerValue]⟩
    · by_cases hp : c = '+'
      · subst hp
        have hr : rest ≠ [] ∧ ∀ x ∈ rest, isdigit x = true := by
          simpa [isInteger, List.isEmpty_iff] using h
        refine ⟨[], ['+'], rest, [], by simp, by simp, Or.inr (Or.inr rfl), hr.1, hr.2,
          by simp, ?_⟩
        simp only [integerValue]
        rw [if_neg hm, if_pos trivial, if_neg (by decide)]
      · have hr : ∀ x ∈ c :: rest, isdigit x = true := by
          simpa [isInteger, hm, hp] using h
        refine ⟨[], [], c :: rest, [], by simp, by simp, Or.inl rfl, by simp, hr,
          by simp, ?_⟩
        simp only [integerValue]
        rw [if_neg hm, if_neg hp, if_neg (by simp)]

/-- The call `stoi` on a line that is a base-10 integer. -/
theorem stoi_of_isIntLine {line : String} (h : isIntLine line = true) :
    stoi line = if inIntRange (lineValue line) then Except.ok (lineValue line)
      else Except.error Failure.out_of_range :=
  stoiChars_of_intPrefix (intPrefix_of_isInteger h)

theorem stoi_of_isIntLine_inRange {line : String} (h : isIntLine line = true)
    (hr : inIntRange (lineValue line)) : stoi line = Except.ok (lineValue line) := by
  rw [stoi_of_isIntLine h, if_pos hr]

/-! ## Facts about the read loop -/

theorem length_eq_zero_iff (l : String) : l.length = 0 ↔ l = "" := by
  cases l with
  | mk data =>
    cases data with
    | nil => exact ⟨fun _ => rfl, fun _ => rfl⟩
    | cons c cs =>
      constructor
      · intro h; simp [String.length] at h
      · intro h; exact absurd (congrArg String.data h) (by simp)

theorem readLoop_nil (st : LoopState) : readLoop [] st = (st, none) := rfl

theorem readLoop_empty (rest : List String) (st : LoopState) :
    readLoop ("" :: rest) st = readLoop rest ⟨st.elves ++ [st.sum], 0⟩ := rfl

theorem readLoop_ok {line : String} {v : Int} (rest : List String) (st : LoopState)
    (hne : line ≠ "") (hv : stoi line = Except.ok v) :
    readLoop (line :: rest) st = readLoop rest ⟨st.elves, wrap32 (st.sum + v)⟩ := by
  have hl : (line.length == 0) = false := by
    simpa [length_eq_zero_iff] using hne
  simp only [readLoop, hl, hv]
  simp

theorem readLoop_error {line : String} {e : Failure} (rest : List String) (st : LoopState)
    (hne : line ≠ "") (hv : stoi line = Except.error e) :
    readLoop (line :: rest) st = (st, some e) := by
  have hl : (line.length == 0) = false := by
    simpa [length_eq_zero_iff] using hne
  simp only [readLoop, hl, hv]
  simp

/-- Lines that are not empty never change `elves`. -/
theorem readLoop_elves_of_nonempty (lines : List String) (st : LoopState)
    (h : ∀ l ∈ lines, l ≠ "") : (readLoop lines st).1.elves = st.elves := by
  induction lines generalizing st with
  | nil => rfl
  | cons l rest ih =>
    have hl : l ≠ "" := h l (by simp)
    have hrest : ∀ x ∈ rest, x ≠ "" := fun x hx => h x (by simp [hx])
    cases hv : stoi l with
    | ok v => rw [readLoop_ok rest st hl hv, ih _ hrest]
    | error e => rw [readLoop_error rest st hl hv]

/-- Reading `p ++ r` is reading `p` and, if that did not throw, reading `r`
from the state reached. -/
theorem readLoop_append (p r : List String) (st : LoopState) :
    readLoop (p ++ r) st =
      match readLoop p st with
      | (st1, none) => readLoop r st1
      | (st1, some e) => (st1, some e) := by
  induction p generalizing st with
  | nil => rfl
  | cons l rest ih =>
    by_cases hl : l = ""
    · subst hl
      rw [List.cons_append, readLoop_empty, readLoop_empty, ih]
    · cases hv : stoi l with
      | ok v => rw [List.cons_append, readLoop_ok _ st hl hv, readLoop_ok _ st hl hv, ih]
      | error e => rw [List.cons_append, readLoop_error _ st hl hv, readLoop_error _ st hl hv]

/-! ## Facts about groups -/

theorem groupsOf_nil : groupsOf [] = [] := rfl

theorem groupsOf_empty (rest : List String) : groupsOf ("" :: rest) = [] :: groupsOf rest := rfl

theorem groupsOf_cons_ne {l : String} (rest : List String) (h : l ≠ "") :
    groupsOf (l :: rest) =
      match groupsOf rest with
      | [] => []
      | g :: gs => (l :: g) :: gs := by
  simp only [groupsOf, h, if_false]

theorem groupSum_nil : groupSum [] = 0 := rfl

theorem groupSum_cons (l : String) (g : List String) :
    groupSum (l :: g) = lineValue l + groupSum g := by
  simp [groupSum]

/-- One group per empty line. -/
theorem groupsOf_length (lines : List String) : (groupsOf lines).length = lines.count "" := by
  induction lines with
  | nil => rfl
  | cons l rest ih =>
    by_cases hl : l = ""
    · subst hl
      rw [groupsOf_empty, List.length_cons, ih, List.count_cons_self]
    · rw [groupsOf_cons_ne rest hl, List.count_cons_of_ne (fun h => hl h.symm), ← ih]
      cases groupsOf rest <;> rfl

/-- No group contains an empty line. -/
theorem groupsOf_no_empty (lines : List String) : ∀ g ∈ groupsOf lines, "" ∉ g := by
  induction lines with
  | nil => intro g hg; simp [groupsOf_nil] at hg
  | cons l rest ih =>
    by_cases hl : l = ""
    · subst hl
      intro g hg
      rw [groupsOf_empty] at hg
      rcases List.mem_cons.mp hg with h | h
      · subst h; simp
      · exact ih g h
    · intro g hg
      rw [groupsOf_cons_ne rest hl] at hg
      cases hr : groupsOf rest with
      | nil => rw [hr] at hg; simp at hg
      | cons g0 gs =>
        rw [hr] at hg ih
        rcases List.mem_cons.mp hg with h | h
        · subst h
          intro hmem
          rcases List.mem_cons.mp hmem with h1 | h1
          · exact hl h1.symm
          · exact ih g0 (by simp) h1
        · exact ih g (by simp [h])

/-- The lines of a group are lines of the input. -/
theorem groupsOf_subset (lines : List String) : ∀ g ∈ groupsOf lines, ∀ l ∈ g, l ∈ lines := by
  induction lines with
  | nil => intro g hg; simp [groupsOf_nil] at hg
  | cons l rest ih =>
    by_cases hl : l = ""
    · subst hl
      intro g hg x hx
      rw [groupsOf_empty] at hg
      rcases List.mem_cons.mp hg with h | h
      · subst h; simp at hx
      · exact List.mem_cons_of_mem _ (ih g h x hx)
    · intro g hg x hx
      rw [groupsOf_cons_ne rest hl] at hg
      cases hr : groupsOf rest with
      | nil => rw [hr] at hg; simp at hg
      | cons g0 gs =>
        rw [hr] at hg ih
        rcases List.mem_cons.mp hg with h | h
        · subst h
          rcases List.mem_cons.mp hx with h1 | h1
          · subst h1; simp
          · exact List.mem_cons_of_mem _ (ih g0 (by simp) x h1)
        · exact List.mem_cons_of_mem _ (ih g (by simp [h]) x hx)

/-- An input that ends with an empty line is its groups, each followed by
its empty line, one after the other. -/
theorem groupsOf_flatten (lines : List String) (h : lines = [] ∨ lines.getLast? = some "") :
    lines = ((groupsOf lines).map (fun g => g ++ [""])).flatten := by
  induction lines with
  | nil => rfl
  | cons l rest ih =>
    have hrest : rest = [] ∨ rest.getLast? = some "" := by
      cases rest with
      | nil => exact Or.inl rfl
      | cons r rs =>
        right
        rcases h with h | h
        · simp at h
        · simpa [List.getLast?_cons_cons] using h
    by_cases hl : l = ""
    · subst hl
      rw [groupsOf_empty, List.map_cons, List.flatten_cons, ← ih hrest]
      rfl
    · rw [groupsOf_cons_ne rest hl]
      cases hr : groupsOf rest with
      | nil =>
        exfalso
        have hlen := groupsOf_length rest
        rw [hr] at hlen
        cases rest with
        | nil =>
          rcases h with h | h
          · simp at h
          · simp at h; exact hl h
        | cons r rs =>
          rcases hrest with h1 | h1
          · simp at h1
          · have hmem : "" ∈ r :: rs := List.mem_of_getLast?_eq_some h1
            have : 0 < (r :: rs).count "" := List.count_pos_iff.mpr hmem
            simp at hlen
            omega
      | cons g0 gs =>
        have := ih hrest
        rw [hr] at this
        simp only [List.map_cons, List.flatten_cons, List.cons_append] at this ⊢
        rw [← this]

/-- The read loop on lines that all parse: it does not throw, and it pushes
one entry per group, the 32-bit sum of the group; the first group continues
the running sum `s` the loop starts with. -/
theorem readLoop_groups (lines : List String) (E : List Int) (s : Int) (hs : inIntRange s)
    (hwf : ∀ l ∈ lines, l = "" ∨ (isIntLine l = true ∧ inIntRange (lineValue l))) :
    ∃ t, readLoop lines ⟨E, s⟩ =
      (⟨E ++ (match groupsOf lines with
              | [] => []
              | g :: gs => wrap32 (s + groupSum g) :: gs.map (fun x => wrap32 (groupSum x))),
        t⟩, none) := by
  induction lines generalizing E s with
  | nil => exact ⟨s, by simp [readLoop_nil, groupsOf_nil]⟩
  | cons l rest ih =>
    have hrest : ∀ x ∈ rest, x = "" ∨ (isIntLine x = true ∧ inIntRange (lineValue x)) :=
      fun x hx => hwf x (by simp [hx])
    by_cases hl : l = ""
    · subst hl
      obtain ⟨t, ht⟩ := ih (E ++ [s]) 0 (by decide) hrest
      refine ⟨t, ?_⟩
      rw [readLoop_empty, groupsOf_empty]
      simp only [ht, groupSum_nil, add_zero, wrap32_of_inIntRange hs]
      cases groupsOf rest with
      | nil => simp
      | cons g gs => simp
    · rcases hwf l (by simp) with h | ⟨hint, hrange⟩
      · exact absurd h hl
      · obtain ⟨t, ht⟩ := ih E (wrap32 (s + lineValue l)) (wrap32_inIntRange _) hrest
        refine ⟨t, ?_⟩
        rw [readLoop_ok rest ⟨E, s⟩ hl (stoi_of_isIntLine_inRange hint hrange),
          groupsOf_cons_ne rest hl]
        simp only [ht]
        cases groupsOf rest with
        | nil => rfl
        | cons g gs =>
          simp only [groupSum_cons, wrap32_add_left, add_assoc]

/-- From the initial state: the group sum list is the list of the 32-bit
sums of the groups, and the loop does not throw. -/
theorem readLoop_init_groups (lines : List String)
    (hwf : ∀ l ∈ lines, l = "" ∨ (isIntLine l = true ∧ inIntRange (lineValue l))) :
    ∃ t, readLoop lines LoopState.init =
      (⟨(groupsOf lines).map (fun x => wrap32 (groupSum x)), t⟩, none) := by
  obtain ⟨t, ht⟩ := readLoop_groups lines [] 0 (by decide) hwf
  refine ⟨t, ?_⟩
  rw [LoopState.init, ht]
  cases groupsOf lines with
  | nil => rfl
  | cons g gs => simp

/-- After an empty line the running sum is zero. -/
theorem readLoop_sum_of_last_empty (pre : List String) (st st1 : LoopState)
    (h : readLoop (pre ++ [""]) st = (st1, none)) : st1.sum = 0 := by
  rw [readLoop_append] at h
  rcases hp : readLoop pre st with ⟨st0, _ | e⟩
  · rw [hp] at h
    simp only [readLoop_empty, readLoop_nil] at h
    rw [← (Prod.mk.inj h).1]
  · rw [hp] at h
    simp at h

/-! ## Facts about the report -/

theorem report_nil (out : List String) :
    report out [] = ⟨out, "Part 1: ", some Failure.vector_range⟩ := rfl

/-- The largest entry is an entry and bounds every entry. -/
theorem max_of_sort_snoc1 {elves p : List Int} {a : Int} (h : sort elves = p ++ [a])
    (hp : ∀ x ∈ p, x ≤ a) : a ∈ elves ∧ ∀ x ∈ elves, x ≤ a := by
  have hperm := sort_perm elves
  constructor
  · exact hperm.subset (by rw [h]; simp)
  · intro x hx
    have hx2 : x ∈ sort elves := hperm.symm.subset hx
    rw [h] at hx2
    rcases List.mem_append.mp hx2 with h1 | h1
    · exact hp x h1
    · simp at h1; omega

/-- On a non-empty list the Part 1 line follows the lines printed before. -/
theorem report_lines_start (out : List String) (elves p : List Int) (a : Int)
    (h : sort elves = p ++ [a]) :
    (out ++ ["Part 1: " ++ showInt a]) <+: (report out elves).lines := by
  simp only [report, h, vecAt_last_snoc]
  split
  · exact List.prefix_refl _
  · exact List.prefix_append _ _

/-- With one or two entries the summing loop reads out of bounds. -/
theorem report_short (out : List String) (elves p : List Int) (a : Int)
    (h : sort elves = p ++ [a]) (hlen : p.length < 2) :
    report out elves = ⟨out ++ ["Part 1: " ++ showInt a], "", some Failure.vector_range⟩ := by
  have hsum : sumLoop (p ++ [a]) [1, 2, 3] 0 = Except.error Failure.vector_range := by
    cases p with
    | nil =>
      have e2 : vecAt [a] (sizeSub [a].length 2) = Except.error Failure.vector_range :=
        vecAt_of_le (by simp [sizeSub])
      have e1 : vecAt [a] (sizeSub [a].length 1) = Except.ok a := rfl
      simp only [List.nil_append, sumLoop, e1, e2]
    | cons b q =>
      cases q with
      | nil =>
        have e3 : vecAt [b, a] (sizeSub [b, a].length 3) = Except.error Failure.vector_range :=
          vecAt_of_le (by simp [sizeSub])
        have e1 : vecAt [b, a] (sizeSub [b, a].length 1) = Except.ok a := rfl
        have e2 : vecAt [b, a] (sizeSub [b, a].length 2) = Except.ok b := rfl
        simp only [List.cons_append, List.nil_append, sumLoop, e1, e2, e3]
      | cons c r => simp only [List.length_cons] at hlen; omega
  simp only [report, h, vecAt_last_snoc, hsum]

/-- The report throws exactly on lists with fewer than three entries. -/
theorem report_err_iff (out : List String) (l : List Int) :
    (report out l).err = some Failure.vector_range ↔ l.length < 3 := by
  constructor
  · intro h
    by_contra hlt
    obtain ⟨p, c, b, a, hs, _⟩ := sort_snoc3 l (by omega)
    rw [report_of_sort_snoc3 out l p c b a hs] at h
    simp at h
  · intro h
    cases l with
    | nil => rfl
    | cons x xs =>
      obtain ⟨p, a, hs, _⟩ := sort_snoc1 (x :: xs) (by simp)
      have hlen : p.length < 2 := by
        have := sort_length (x :: xs)
        rw [hs] at this
        simp at this h
        omega
      rw [report_short out (x :: xs) p a hs hlen]

/-- An input is its part up to the last empty line followed by lines that
are not empty. -/
theorem uptoLastEmpty_split (lines : List String) :
    ∃ r, lines = uptoLastEmpty lines ++ r ∧ ∀ l ∈ r, l ≠ "" := by
  refine ⟨lines.rtakeWhile (fun l => l != ""), ?_, ?_⟩
  · unfold uptoLastEmpty List.rdropWhile List.rtakeWhile
    rw [← List.reverse_append, List.takeWhile_append_dropWhile, List.reverse_reverse]
  · intro l hl
    unfold List.rtakeWhile at hl
    have := List.mem_takeWhile_imp (List.mem_reverse.mp hl)
    simpa using this

theorem uptoLastEmpty_of_no_empty (lines : List String) (h : "" ∉ lines) :
    uptoLastEmpty lines = [] := by
  unfold uptoLastEmpty
  rw [List.rdropWhile_eq_nil_iff]
  intro x hx
  have : x ≠ "" := fun he => h (he ▸ hx)
  simpa using this

/-- Sorting two lists with the same entries gives the same vector. -/
theorem sort_eq_of_perm {l1 l2 : List Int} (h : l1.Perm l2) : sort l1 = sort l2 :=
  List.eq_of_perm_of_sorted ((sort_perm l1).trans (h.trans (sort_perm l2).symm))
    (sort_sorted l1) (sort_sorted l2)

/-- The report reads its list only through the sorted vector. -/
theorem report_eq_of_sort_eq (out : List String) {l1 l2 : List Int} (h : sort l1 = sort l2) :
    report out l1 = report out l2 := by
  simp only [report, h]

/-- Later lines only append to `elves`. -/
theorem readLoop_elves_mono (lines : List String) (st : LoopState) :
    st.elves <+: (readLoop lines st).1.elves := by
  induction lines generalizing st with
  | nil => exact List.prefix_refl _
  | cons l rest ih =>
    by_cases hl : l = ""
    · subst hl
      rw [readLoop_empty]
      exact (List.prefix_append st.elves [st.sum]).trans (ih ⟨st.elves ++ [st.sum], 0⟩)
    · cases hv : stoi l with
      | ok v =>
        rw [readLoop_ok rest st hl hv]
        exact ih ⟨st.elves, wrap32 (st.sum + v)⟩
      | error e =>
        rw [readLoop_error rest st hl hv]

/-- A line that is not empty leaves `elves` as it is: it either adds to the
running sum or throws. -/
theorem readLoop_cons_nonempty (line : String) (rest : List String) (st : LoopState)
    (hne : line ≠ "") :
    (∃ v, stoi line = Except.ok v ∧
      readLoop (line :: rest) st = readLoop rest ⟨st.elves, wrap32 (st.sum + v)⟩) ∨
    (∃ e, stoi line = Except.error e ∧ readLoop (line :: rest) st = (st, some e)) := by
  cases hv : stoi line with
  | ok v => exact Or.inl ⟨v, rfl, readLoop_ok rest st hne hv⟩
  | error e => exact Or.inr ⟨e, rfl, readLoop_error rest st hne hv⟩

/-- The call `stoi` on characters that are all white space. -/
theorem stoiChars_of_all_isspace (cs : List Char) (h : ∀ c ∈ cs, isspace c = true) :
    stoiChars cs = Except.error Failure.invalid_argument := by
  have hd : cs.dropWhile isspace = [] := List.dropWhile_eq_nil_iff.mpr h
  unfold stoiChars
  rw [hd]
  rfl

/-- A list whose sorted form ends in `c, b, a` is `a, b, c` and the front part, up to order. -/
theorem perm_of_sort_snoc3 {elves p : List Int} {c b a : Int} (hs : sort elves = p ++ [c, b, a]) :
    elves.Perm (a :: b :: c :: p) := by
  have h1 : elves.Perm (p ++ [c, b, a]) := by
    rw [← hs]; exact (sort_perm elves).symm
  have h2 : (p ++ [c, b, a]).Perm ([c, b, a] ++ p) := List.perm_append_comm
  have h3 : ([c, b, a] ++ p).Perm (a :: b :: c :: p) := by
    have : ([c, b, a] : List Int).Perm [a, b, c] := by
      rw [List.perm_iff_count]
      intro x
      simp only [List.count_cons, List.count_nil]
      omega
    exact this.append_right p
  exact h1.trans (h2.trans h3)

/-- An input is its part up to the last empty line followed by the group in progress. -/
theorem uptoLastEmpty_append_afterLastEmpty (lines : List String) :
    uptoLastEmpty lines ++ afterLastEmpty lines = lines := by
  unfold uptoLastEmpty afterLastEmpty List.rdropWhile List.rtakeWhile
  rw [← List.reverse_append, List.takeWhile_append_dropWhile, List.reverse_reverse]

theorem afterLastEmpty_no_empty (lines : List String) : ∀ l ∈ afterLastEmpty lines, l ≠ "" := by
  intro l hl
  unfold afterLastEmpty List.rtakeWhile at hl
  have := List.mem_takeWhile_imp (List.mem_reverse.mp hl)
  simpa using this

theorem uptoLastEmpty_nil_or_last (lines : List String) :
    uptoLastEmpty lines = [] ∨ (uptoLastEmpty lines).getLast? = some "" := by
  by_cases h : uptoLastEmpty lines = []
  · exact Or.inl h
  · right
    have := List.rdropWhile_last_not (fun l => l != "") lines h
    rw [List.getLast?_eq_getLast _ h]
    simpa using this

/-- Integer lines add their values to the running sum and leave `elves` alone. -/
theorem readLoop_nonempty_sum (r : List String) (E : List Int) (s : Int) (hs : inIntRange s)
    (hne : ∀ l ∈ r, l ≠ "")
    (hwf : ∀ l ∈ r, l = "" ∨ (isIntLine l = true ∧ inIntRange (lineValue l))) :
    readLoop r ⟨E, s⟩ = (⟨E, wrap32 (s + groupSum r)⟩, none) := by
  induction r generalizing s with
  | nil => rw [readLoop_nil, groupSum_nil, add_zero, wrap32_of_inIntRange hs]
  | cons l rest ih =>
    have hl : l ≠ "" := hne l (by simp)
    rcases hwf l (by simp) with h | ⟨hint, hrange⟩
    · exact absurd h hl
    · rw [readLoop_ok rest ⟨E, s⟩ hl (stoi_of_isIntLine_inRange hint hrange),
        ih (wrap32 (s + lineValue l)) (wrap32_inIntRange _)
          (fun x hx => hne x (by simp [hx])) (fun x hx => hwf x (by simp [hx])),
        groupSum_cons, wrap32_add_left, add_assoc]

/-- The state of the read loop after lines that all parse. -/
theorem readLoop_state (p : List String)
    (hwf : ∀ l ∈ p, l = "" ∨ (isIntLine l = true ∧ inIntRange (lineValue l))) :
    readLoop p LoopState.init =
      (⟨(groupsOf p).map (fun x => wrap32 (groupSum x)),
        wrap32 (groupSum (afterLastEmpty p))⟩, none) := by
  obtain ⟨t, ht⟩ := readLoop_init_groups p hwf
  have hsplit := uptoLastEmpty_append_afterLastEmpty p
  have hu : ∀ l ∈ uptoLastEmpty p, l = "" ∨ (isIntLine l = true ∧ inIntRange (lineValue l)) :=
    fun l hl => hwf l (by rw [← hsplit]; exact List.mem_append_left _ hl)
  have hr : ∀ l ∈ afterLastEmpty p, l = "" ∨ (isIntLine l = true ∧ inIntRange (lineValue l)) :=
    fun l hl => hwf l (by rw [← hsplit]; exact List.mem_append_right _ hl)
  obtain ⟨tu, htu⟩ := readLoop_init_groups (uptoLastEmpty p) hu
  have htu0 : tu = 0 := by
    rcases uptoLastEmpty_nil_or_last p with h | h
    · rw [h, readLoop_nil] at htu
      have := congrArg LoopState.sum (Prod.mk.inj htu).1
      exact this.symm
    · obtain ⟨q, hq⟩ := List.getLast?_eq_some_iff.mp h
      have := readLoop_sum_of_last_empty q LoopState.init _ (hq ▸ htu)
      simpa using this
  have hrun : readLoop p LoopState.init =
      (⟨(groupsOf (uptoLastEmpty p)).map (fun x => wrap32 (groupSum x)),
        wrap32 (0 + groupSum (afterLastEmpty p))⟩, none) := by
    conv_lhs => rw [← hsplit]
    rw [readLoop_append, htu, htu0]
    exact readLoop_nonempty_sum _ _ 0 (by decide) (afterLastEmpty_no_empty p) hr
  rw [ht] at hrun
  have h1 := congrArg LoopState.sum (Prod.mk.inj hrun).1
  simp only [zero_add] at h1
  rw [ht, h1]

/-! ## Facts about whole runs -/

theorem Day1_of_loop_ok {text : List Char} {st : LoopState}
    (h : readLoop (getlines text) LoopState.init = (st, none)) :
    Day1 (some text) = report [] st.elves := by
  simp only [Day1, h]

theorem Day1_of_loop_error {text : List Char} {st : LoopState} {e : Failure}
    (h : readLoop (getlines text) LoopState.init = (st, some e)) :
    Day1 (some text) = ⟨[], "", some e⟩ := by
  simp only [Day1, h]

/-- The read loop throws exactly when some non-empty line does not parse. -/
theorem readLoop_no_error_iff (lines : List String) (st : LoopState) :
    (readLoop lines st).2 = none ↔ ∀ l ∈ lines, l ≠ "" → ∃ v, stoi l = Except.ok v := by
  induction lines generalizing st with
  | nil => simp [readLoop_nil]
  | cons l rest ih =>
    by_cases hl : l = ""
    · subst hl
      rw [readLoop_empty, ih]
      constructor
      · intro h x hx hne
        rcases List.mem_cons.mp hx with h1 | h1
        · exact absurd h1 hne
        · exact h x h1 hne
      · intro h x hx hne
        exact h x (List.mem_cons_of_mem _ hx) hne
    · cases hv : stoi l with
      | ok v =>
        rw [readLoop_ok rest st hl hv, ih]
        constructor
        · intro h x hx hne
          rcases List.mem_cons.mp hx with h1 | h1
          · subst h1; exact ⟨v, hv⟩
          · exact h x h1 hne
        · intro h x hx hne
          exact h x (List.mem_cons_of_mem _ hx) hne
      | error e =>
        rw [readLoop_error rest st hl hv]
        constructor
        · intro h; simp at h
        · intro h
          obtain ⟨v, hv2⟩ := h l (by simp) hl
          rw [hv] at hv2
          cases hv2

/-- On non-empty lines that parse, the loop leaves `elves` alone, and the
running sum it reaches does not depend on `elves`. -/
theorem readLoop_parsing_lines (g : List String) (E : List Int) (s : Int)
    (hne : ∀ l ∈ g, l ≠ "") (hok : ∀ l ∈ g, ∃ v, stoi l = Except.ok v) :
    readLoop g ⟨E, s⟩ = (⟨E, (readLoop g ⟨[], s⟩).1.sum⟩, none) := by
  induction g generalizing s with
  | nil => rfl
  | cons l rest ih =>
    have hl : l ≠ "" := hne l (by simp)
    obtain ⟨v, hv⟩ := hok l (by simp)
    rw [readLoop_ok rest ⟨E, s⟩ hl hv, readLoop_ok rest ⟨[], s⟩ hl hv]
    exact ih _ (fun x hx => hne x (by simp [hx])) (fun x hx => hok x (by simp [hx]))

/-- Groups that parse, each followed by its empty line: one entry per group,
and the entry depends on the group only. -/
theorem readLoop_blocks (gs : List (List String)) (E : List Int)
    (hne : ∀ g ∈ gs, ∀ l ∈ g, l ≠ "") (hok : ∀ g ∈ gs, ∀ l ∈ g, ∃ v, stoi l = Except.ok v) :
    readLoop ((gs.map (fun g => g ++ [""])).flatten) ⟨E, 0⟩
      = (⟨E ++ gs.map blockSum, 0⟩, none) := by
  induction gs generalizing E with
  | nil => simp [readLoop_nil]
  | cons g rest ih =>
    have h1 := readLoop_parsing_lines g E 0 (hne g (by simp)) (hok g (by simp))
    rw [List.map_cons, List.flatten_cons, List.append_assoc, readLoop_append, h1]
    simp only [List.singleton_append, readLoop_empty]
    rw [ih _ (fun x hx => hne x (by simp [hx])) (fun x hx => hok x (by simp [hx]))]
    simp [blockSum, LoopState.init]

/-- A file made of groups that parse, each ended by an empty line, and of
trailing lines that parse: the report runs on the entries of the groups. -/
theorem Day1_of_blocks (gs : List (List String)) (T : List String) (text : List Char)
    (htext : getlines text = (gs.map (fun g => g ++ [""])).flatten ++ T)
    (hne : ∀ g ∈ gs, ∀ l ∈ g, l ≠ "") (hT : ∀ t ∈ T, t ≠ "")
    (hok : ∀ l ∈ getlines text, l ≠ "" → ∃ v, stoi l = Except.ok v) :
    Day1 (some text) = report [] (gs.map blockSum) := by
  have hokg : ∀ g ∈ gs, ∀ l ∈ g, ∃ v, stoi l = Except.ok v := by
    intro g hg l hl
    refine hok l ?_ (hne g hg l hl)
    rw [htext]
    refine List.mem_append_left _ (List.mem_flatten.mpr ⟨g ++ [""], ?_, List.mem_append_left _ hl⟩)
    exact List.mem_map.mpr ⟨g, hg, rfl⟩
  have hokT : ∀ t ∈ T, ∃ v, stoi t = Except.ok v := by
    intro t ht
    exact hok t (by rw [htext]; exact List.mem_append_right _ ht) (hT t ht)
  have hrun : readLoop (getlines text) LoopState.init
      = (⟨gs.map blockSum, (readLoop T ⟨[], 0⟩).1.sum⟩, none) := by
    rw [htext, readLoop_append, LoopState.init, readLoop_blocks gs [] hne hokg]
    simp only [List.nil_append]
    exact readLoop_parsing_lines T _ 0 hT hokT
  rw [Day1_of_loop_ok hrun]

/-- A file in which some non-empty line does not parse: nothing is printed. -/
theorem Day1_of_bad_line (text : List Char)
    (hbad : ¬ ∀ l ∈ getlines text, l ≠ "" → ∃ v, stoi l = Except.ok v) :
    ∃ e, Day1 (some text) = ⟨[], "", some e⟩ := by
  rcases hrun : readLoop (getlines text) LoopState.init with ⟨st, _ | e⟩
  · exfalso
    apply hbad
    rw [← readLoop_no_error_iff (getlines text) LoopState.init, hrun]
  · exact ⟨e, Day1_of_loop_error hrun⟩

/-- Reordering groups does not change which lines the input has. -/
theorem mem_blocks_of_perm {gs1 gs2 : List (List String)} (T : List String)
    (hperm : gs1.Perm gs2) (l : String)
    (h : l ∈ (gs1.map (fun g => g ++ [""])).flatten ++ T) :
    l ∈ (gs2.map (fun g => g ++ [""])).flatten ++ T := by
  rcases List.mem_append.mp h with h1 | h1
  · obtain ⟨b, hb, hlb⟩ := List.mem_flatten.mp h1
    obtain ⟨g, hg, rfl⟩ := List.mem_map.mp hb
    exact List.mem_append_left _
      (List.mem_flatten.mpr ⟨g ++ [""], List.mem_map.mpr ⟨g, hperm.subset hg, rfl⟩, hlb⟩)
  · exact List.mem_append_right _ h1

/-- The three largest entries of a list whose sorted form ends in `c, b, a`. -/
theorem topThree_of_sort_snoc3 {l p : List Int} {c b a : Int} (hs : sort l = p ++ [c, b, a]) :
    topThree l = [a, b, c] := by
  unfold topThree
  rw [hs]
  simp

/-- The largest entry of a list whose sorted form ends in `a`. -/
theorem topThree_head_of_sort_snoc1 {l p : List Int} {a : Int} (hs : sort l = p ++ [a]) :
    (topThree l).head? = some a := by
  unfold topThree
  rw [hs]
  simp

/-! ## The claims -/

/-- C1: for every non-empty group sum list, the Part 1 line printed by the
report carries the maximum of the list (an entry that bounds every entry);
the line comes right after whatever was printed before. The same holds for
`Day1` on every file whose read loop ends normally with that list. -/
theorem part1_prints_maximum (out : List String) (elves : List Int) (h : elves ≠ []) :
    ∃ m, m ∈ elves ∧ (∀ x ∈ elves, x ≤ m) ∧
      (out ++ ["Part 1: " ++ showInt m]) <+: (report out elves).lines ∧
      ∀ text st, readLoop (getlines text) LoopState.init = (st, none) → st.elves = elves →
        ["Part 1: " ++ showInt m] <+: (Day1 (some text)).lines := by
  obtain ⟨p, a, hs, hp⟩ := sort_snoc1 elves (by
    cases elves with
    | nil => exact absurd rfl h
    | cons x xs => simp)
  obtain ⟨hmem, hmax⟩ := max_of_sort_snoc1 hs hp
  refine ⟨a, hmem, hmax, report_lines_start out elves p a hs, ?_⟩
  intro text st hload hel
  have := report_lines_start [] elves p a hs
  simp only [Day1, hload, hel]
  simpa using this

/-- C1 at the list `[7, 10, 4]`, read from the file `3 4 _ 10 _ 4 _`. -/
theorem part1_prints_maximum_witness :
    ([7, 10, 4] : List Int) ≠ [] ∧
    readLoop (getlines "3\n4\n\n10\n\n4\n\n".data) LoopState.init = (⟨[7, 10, 4], 0⟩, none) ∧
    ∃ m, m ∈ ([7, 10, 4] : List Int) ∧ (∀ x ∈ ([7, 10, 4] : List Int), x ≤ m) ∧
      (["before"] ++ ["Part 1: " ++ showInt m]) <+: (report ["before"] [7, 10, 4]).lines ∧
      ["Part 1: " ++ showInt m] <+: (Day1 (some "3\n4\n\n10\n\n4\n\n".data)).lines := by
  obtain ⟨m, hmem, hmax, hrep, hday⟩ := part1_prints_maximum ["before"] [7, 10, 4] (by decide)
  exact ⟨by decide, by decide, m, hmem, hmax, hrep,
    hday "3\n4\n\n10\n\n4\n\n".data ⟨[7, 10, 4], 0⟩ (by decide) rfl⟩

/-- C2, as stated, fails: three groups of `2147483647` give the list
`[2147483647, 2147483647, 2147483647]`, whose three largest entries sum to
`6442450941`; the `int` that `Day1` prints on the Part 2 line is `2147483645`. -/
theorem part2_counterexample :
    groupSums (getlines "2147483647\n\n2147483647\n\n2147483647\n\n".data)
      = [2147483647, 2147483647, 2147483647] ∧
    Day1 (some "2147483647\n\n2147483647\n\n2147483647\n\n".data)
      = ⟨["Part 1: 2147483647", "Part 2: 2147483645"], "", none⟩ ∧
    showInt (2147483647 + 2147483647 + 2147483647) = "6442450941" ∧
    (2147483645 : Int) ≠ 2147483647 + 2147483647 + 2147483647 := by
  decide

/-- C2, amended: for every group sum list with at least three entries the
report prints both lines and stops normally; the list is, up to order, three
entries `a ≥ b ≥ c` and a rest that `c` bounds, the Part 1 value is `a`, and
the Part 2 value is `a + b + c` reduced to a 32-bit `int`, which is
`a + b + c` itself whenever that sum fits in an `int`. -/
theorem part2_prints_top_three (out : List String) (elves : List Int) (h : 3 ≤ elves.length) :
    ∃ a b c rest, elves.Perm (a :: b :: c :: rest) ∧ c ≤ b ∧ b ≤ a ∧ (∀ x ∈ rest, x ≤ c) ∧
      report out elves =
        ⟨out ++ ["Part 1: " ++ showInt a, "Part 2: " ++ showInt (wrap32 (a + b + c))], "", none⟩ ∧
      (inIntRange (a + b + c) →
        report out elves =
          ⟨out ++ ["Part 1: " ++ showInt a, "Part 2: " ++ showInt (a + b + c)], "", none⟩) := by
  obtain ⟨p, c, b, a, hs, hcb, hba, hp⟩ := sort_snoc3 elves h
  have hrep := report_of_sort_snoc3 out elves p c b a hs
  refine ⟨a, b, c, p, ?_, hcb, hba, hp, hrep, ?_⟩
  · have h1 : elves.Perm (p ++ [c, b, a]) := by
      rw [← hs]; exact (sort_perm elves).symm
    have h2 : (p ++ [c, b, a]).Perm ([c, b, a] ++ p) := List.perm_append_comm
    have h3 : ([c, b, a] ++ p).Perm (a :: b :: c :: p) := by
      have : ([c, b, a] : List Int).Perm [a, b, c] := by
        rw [List.perm_iff_count]
        intro x
        simp only [List.count_cons, List.count_nil]
        omega
      exact this.append_right p
    exact h1.trans (h2.trans h3)
  · intro hr
    rw [hrep, wrap32_of_inIntRange hr]

/-- C2 amended, at the list `[5, 5, 5, 1]`: Part 2 is `15`. -/
theorem part2_prints_top_three_witness :
    3 ≤ ([5, 5, 5, 1] : List Int).length ∧
    (∃ a b c rest, ([5, 5, 5, 1] : List Int).Perm (a :: b :: c :: rest) ∧ c ≤ b ∧ b ≤ a ∧
      (∀ x ∈ rest, x ≤ c) ∧
      report [] [5, 5, 5, 1] =
        ⟨[] ++ ["Part 1: " ++ showInt a, "Part 2: " ++ showInt (wrap32 (a + b + c))], "", none⟩ ∧
      (inIntRange (a + b + c) →
        report [] [5, 5, 5, 1] =
          ⟨[] ++ ["Part 1: " ++ showInt a, "Part 2: " ++ showInt (a + b + c)], "", none⟩)) ∧
    report [] [5, 5, 5, 1] = ⟨["Part 1: 5", "Part 2: 15"], "", none⟩ :=
  ⟨by decide, part2_prints_top_three [] [5, 5, 5, 1] (by decide), by decide⟩

/-- C4, as stated, fails: the input `3 4 _ 10 _ 1 1 1 1` has two empty lines,
so the list is `[7, 10]`, not `[7, 10, 4]`, and the output is not the two
lines `Part 1: 10`, `Part 2: 21`. -/
theorem scenario_counterexample :
    groupSums (getlines "3\n4\n\n10\n\n1\n1\n1\n1\n".data) ≠ [7, 10, 4] ∧
    (Day1 (some "3\n4\n\n10\n\n1\n1\n1\n1\n".data)).lines
      ≠ ["Part 1: 10", "Part 2: 21"] := by
  decide

/-- C4, amended: on the input `3 4 _ 10 _ 1 1 1 1` the read loop builds
`[7, 10]` and ends with the running sum `4` not committed; `Day1` prints
`Part 1: 10` and then reads out of bounds in the summing loop. With one more
empty line at the end of the input the list is `[7, 10, 4]` and `Day1`
prints `Part 1: 10` and `Part 2: 21`. -/
theorem scenario_two_blank_lines :
    getlines "3\n4\n\n10\n\n1\n1\n1\n1\n".data
      = ["3", "4", "", "10", "", "1", "1", "1", "1"] ∧
    readLoop (getlines "3\n4\n\n10\n\n1\n1\n1\n1\n".data) LoopState.init
      = (⟨[7, 10], 4⟩, none) ∧
    Day1 (some "3\n4\n\n10\n\n1\n1\n1\n1\n".data)
      = ⟨["Part 1: 10"], "", some Failure.vector_range⟩ ∧
    readLoop (getlines "3\n4\n\n10\n\n1\n1\n1\n1\n\n".data) LoopState.init
      = (⟨[7, 10, 4], 0⟩, none) ∧
    Day1 (some "3\n4\n\n10\n\n1\n1\n1\n1\n\n".data)
      = ⟨["Part 1: 10", "Part 2: 21"], "", none⟩ := by
  decide

/-- C6: on the empty group sum list the index `size() - 1` is `2^64 - 1`,
`at` throws, and the report ends there: no line is added to the output (the
label `Part 1: ` was inserted, no value and no line end follow it), so no
Part 1 line, no Part 2 line and no substitute value. The same for `Day1` on
every file whose read loop ends normally with an empty list, which is the case
whenever no line is empty. -/
theorem empty_list_fails_at_part1 (out : List String) :
    sizeSub ([] : List Int).length 1 = 18446744073709551615 ∧
    vecAt [] (sizeSub ([] : List Int).length 1) = Except.error Failure.vector_range ∧
    report out [] = ⟨out, "Part 1: ", some Failure.vector_range⟩ ∧
    (∀ text st, readLoop (getlines text) LoopState.init = (st, none) → st.elves = [] →
      Day1 (some text) = ⟨[], "Part 1: ", some Failure.vector_range⟩) ∧
    (∀ lines, (∀ l ∈ lines, l ≠ "") → groupSums lines = []) := by
  refine ⟨by decide, rfl, rfl, ?_, ?_⟩
  · intro text st hload hel
    simp only [Day1, hload, hel]
    rfl
  · intro lines hl
    exact readLoop_elves_of_nonempty lines LoopState.init hl

/-- C6 on the file `5 5`, which has no empty line. -/
theorem empty_list_fails_at_part1_witness :
    readLoop (getlines "5\n5\n".data) LoopState.init = (⟨[], 10⟩, none) ∧
    Day1 (some "5\n5\n".data) = ⟨[], "Part 1: ", some Failure.vector_range⟩ ∧
    groupSums ["5", "5"] = [] :=
  ⟨by decide,
   (empty_list_fails_at_part1 []).2.2.2.1 "5\n5\n".data ⟨[], 10⟩ (by decide) rfl,
   (empty_list_fails_at_part1 []).2.2.2.2 ["5", "5"] (by decide)⟩

/-- C7: with exactly one or exactly two entries the report prints the Part 1
line with the maximum entry and then `at` throws in the summing loop, so no
Part 2 line is printed; and the report throws out of bounds if and only if
the list has fewer than three entries. -/
theorem short_list_fails_after_part1 (out : List String) (elves : List Int)
    (h : elves.length = 1 ∨ elves.length = 2) :
    (∃ m, m ∈ elves ∧ (∀ x ∈ elves, x ≤ m) ∧
      report out elves = ⟨out ++ ["Part 1: " ++ showInt m], "", some Failure.vector_range⟩) ∧
    (∀ l : List Int, (report out l).err = some Failure.vector_range ↔ l.length < 3) ∧
    (∀ l : List Int, (report out l).err = none ↔ 3 ≤ l.length) := by
  refine ⟨?_, report_err_iff out, ?_⟩
  · obtain ⟨p, a, hs, hp⟩ := sort_snoc1 elves (by omega)
    obtain ⟨hmem, hmax⟩ := max_of_sort_snoc1 hs hp
    have hlen : p.length < 2 := by
      have := sort_length elves
      rw [hs] at this
      simp only [List.length_append, List.length_singleton] at this
      omega
    exact ⟨a, hmem, hmax, report_short out elves p a hs hlen⟩
  · intro l
    constructor
    · intro hnone
      by_contra hlt
      have := (report_err_iff out l).mpr (by omega)
      rw [hnone] at this
      exact absurd this (by simp)
    · intro h3
      obtain ⟨p, c, b, a, hs, _⟩ := sort_snoc3 l h3
      rw [report_of_sort_snoc3 out l p c b a hs]

/-- C7 at the list `[7, 10]`. -/
theorem short_list_fails_after_part1_witness :
    (([7, 10] : List Int).length = 1 ∨ ([7, 10] : List Int).length = 2) ∧
    ((∃ m, m ∈ ([7, 10] : List Int) ∧ (∀ x ∈ ([7, 10] : List Int), x ≤ m) ∧
      report [] [7, 10] = ⟨[] ++ ["Part 1: " ++ showInt m], "", some Failure.vector_range⟩) ∧
    (∀ l : List Int, (report [] l).err = some Failure.vector_range ↔ l.length < 3) ∧
    (∀ l : List Int, (report [] l).err = none ↔ 3 ≤ l.length)) ∧
    report [] [7, 10] = ⟨["Part 1: 10"], "", some Failure.vector_range⟩ :=
  ⟨by decide, short_list_fails_after_part1 [] [7, 10] (by decide), by decide⟩

/-- C8: when the file cannot be opened, `Day1` prints the line
`Unable to open file`, runs no read loop, and goes on to the report with the
empty list; the report throws out of bounds at the Part 1 read, so that
diagnostic line is the only line of output. -/
theorem unopened_file_prints_diagnostic_only :
    Day1 none = report ["Unable to open file"] [] ∧
    Day1 none = ⟨["Unable to open file"], "Part 1: ", some Failure.vector_range⟩ ∧
    (Day1 none).lines = ["Unable to open file"] :=
  ⟨rfl, rfl, rfl⟩

/-- C3, as stated, fails. The lines `99999999999`, empty are well formed,
yet `stoi` throws `out_of_range` on the first and the list stays empty
although there is one empty line. The lines `2147483647`, `1`, empty are well
formed and sum to `2147483648`, yet the entry is `-2147483648`. -/
theorem groups_counterexample :
    (∀ l ∈ ["99999999999", ""], l = "" ∨ isIntLine l = true) ∧
    ["99999999999", ""].getLast? = some "" ∧
    ["99999999999", ""].count "" = 1 ∧
    readLoop ["99999999999", ""] LoopState.init = (⟨[], 0⟩, some Failure.out_of_range) ∧
    (groupSums ["99999999999", ""]).length = 0 ∧
    (∀ l ∈ ["2147483647", "1", ""], l = "" ∨ isIntLine l = true) ∧
    groupSum ["2147483647", "1"] = 2147483648 ∧
    groupSums ["2147483647", "1", ""] = [-2147483648] ∧
    groupSums ["2147483647", "1", ""] ≠ [groupSum ["2147483647", "1"]] := by
  decide

/-- C3, amended: for every input in which each line is empty or a base-10
integer that fits in an `int`, whose last line is empty, and in which every
partial sum of a group fits in an `int`, the read loop ends normally with
running sum `0` and with one entry per empty line; the entries are, in order,
the arithmetic sums of the groups, where the groups are the runs of non-empty
lines that the empty lines end (the input is its groups, each followed by an
empty line). -/
theorem groups_are_summed (lines : List String)
    (hwf : ∀ l ∈ lines, l = "" ∨ (isIntLine l = true ∧ inIntRange (lineValue l)))
    (hlast : lines.getLast? = some "")
    (hsum : ∀ g ∈ groupsOf lines, ∀ p, p <+: g → inIntRange (groupSum p)) :
    readLoop lines LoopState.init = (⟨(groupsOf lines).map groupSum, 0⟩, none) ∧
    (groupSums lines).length = lines.count "" ∧
    lines = ((groupsOf lines).map (fun g => g ++ [""])).flatten ∧
    (∀ g ∈ groupsOf lines, "" ∉ g) := by
  obtain ⟨t, ht⟩ := readLoop_init_groups lines hwf
  have hmap : (groupsOf lines).map (fun x => wrap32 (groupSum x)) = (groupsOf lines).map groupSum :=
    List.map_congr_left (fun g hg => wrap32_of_inIntRange (hsum g hg g (List.prefix_refl g)))
  obtain ⟨pre, hpre⟩ := List.getLast?_eq_some_iff.mp hlast
  have ht0 : t = 0 := by
    have := readLoop_sum_of_last_empty pre LoopState.init _ (hpre ▸ ht)
    simpa using this
  rw [hmap, ht0] at ht
  refine ⟨ht, ?_, groupsOf_flatten lines (Or.inr hlast), groupsOf_no_empty lines⟩
  simp only [groupSums, ht, List.length_map, groupsOf_length]

/-- C3 amended, at the lines `3 4 _ 10 _`. -/
theorem groups_are_summed_witness :
    (∀ l ∈ ["3", "4", "", "10", ""], l = "" ∨ (isIntLine l = true ∧ inIntRange (lineValue l))) ∧
    readLoop ["3", "4", "", "10", ""] LoopState.init
      = (⟨(groupsOf ["3", "4", "", "10", ""]).map groupSum, 0⟩, none) ∧
    (groupSums ["3", "4", "", "10", ""]).length = ["3", "4", "", "10", ""].count "" ∧
    ["3", "4", "", "10", ""]
      = ((groupsOf ["3", "4", "", "10", ""]).map (fun g => g ++ [""])).flatten ∧
    (∀ g ∈ groupsOf ["3", "4", "", "10", ""], "" ∉ g) ∧
    groupsOf ["3", "4", "", "10", ""] = [["3", "4"], ["10"]] ∧
    groupSums ["3", "4", "", "10", ""] = [7, 10] := by
  have hwf : ∀ l ∈ ["3", "4", "", "10", ""],
      l = "" ∨ (isIntLine l = true ∧ inIntRange (lineValue l)) := by decide
  have hg : groupsOf ["3", "4", "", "10", ""] = [["3", "4"], ["10"]] := by decide
  have hsum : ∀ g ∈ groupsOf ["3", "4", "", "10", ""], ∀ p, p <+: g → inIntRange (groupSum p) := by
    rw [hg]
    intro g hg2 p hp
    simp only [List.mem_cons, List.mem_singleton, List.not_mem_nil, or_false] at hg2
    rcases hg2 with rfl | rfl
    · rcases List.prefix_cons_iff.mp hp with rfl | ⟨q, rfl, hq⟩
      · decide
      · rcases List.prefix_cons_iff.mp hq with rfl | ⟨q2, rfl, hq2⟩
        · decide
        · rw [List.prefix_nil] at hq2
          subst hq2
          decide
    · rcases List.prefix_cons_iff.mp hp with rfl | ⟨q, rfl, hq⟩
      · decide
      · rw [List.prefix_nil] at hq
        subst hq
        decide
  obtain ⟨h1, h2, h3, h4⟩ := groups_are_summed ["3", "4", "", "10", ""] hwf (by decide) hsum
  exact ⟨hwf, h1, h2, h3, h4, hg, by decide⟩

/-- C5: the running sum of a final group that no empty line follows is never
committed. For every sequence of lines `L` and every sequence `T` of
non-empty lines (integer lines in particular), the group sum list built from
`L ++ T` is the one built from `L` up to and including its last empty line,
which is the empty list when `L` has no empty line. The input `5 5` leaves
the list empty with `10` in the running sum, so `10` is not in the list. -/
theorem final_group_not_committed (L T : List String) (hT : ∀ t ∈ T, t ≠ "") :
    groupSums (L ++ T) = groupSums (uptoLastEmpty L) ∧
    ("" ∉ L → groupSums (L ++ T) = []) ∧
    readLoop (getlines "5\n5\n".data) LoopState.init = (⟨[], 10⟩, none) ∧
    10 ∉ groupSums (getlines "5\n5\n".data) := by
  have key : groupSums (L ++ T) = groupSums (uptoLastEmpty L) := by
    obtain ⟨r, hr, hne⟩ := uptoLastEmpty_split L
    have hrt : ∀ l ∈ r ++ T, l ≠ "" := by
      intro l hl
      rcases List.mem_append.mp hl with h | h
      · exact hne l h
      · exact hT l h
    have e : L ++ T = uptoLastEmpty L ++ (r ++ T) := by
      rw [← List.append_assoc, ← hr]
    unfold groupSums
    rw [e, readLoop_append]
    rcases hp : readLoop (uptoLastEmpty L) LoopState.init with ⟨st1, _ | err⟩
    · exact readLoop_elves_of_nonempty (r ++ T) st1 hrt
    · rfl
  refine ⟨key, ?_, by decide, by decide⟩
  intro hno
  rw [key, uptoLastEmpty_of_no_empty L hno]
  rfl

/-- C5 at `L = 3 4 _ 1`, `T = 5 5`: the list is `[7]`, built from `3 4 _`. -/
theorem final_group_not_committed_witness :
    (∀ t ∈ ["5", "5"], t ≠ "") ∧
    (groupSums (["3", "4", "", "1"] ++ ["5", "5"]) = groupSums (uptoLastEmpty ["3", "4", "", "1"]) ∧
    ("" ∉ ["3", "4", "", "1"] → groupSums (["3", "4", "", "1"] ++ ["5", "5"]) = []) ∧
    readLoop (getlines "5\n5\n".data) LoopState.init = (⟨[], 10⟩, none) ∧
    10 ∉ groupSums (getlines "5\n5\n".data)) ∧
    uptoLastEmpty ["3", "4", "", "1"] = ["3", "4", ""] ∧
    groupSums (["3", "4", "", "1"] ++ ["5", "5"]) = [7] :=
  ⟨by decide, final_group_not_committed ["3", "4", "", "1"] ["5", "5"] (by decide),
   by decide, by decide⟩

/-- C9, as stated, fails: `12abc`, ` 7` and `1 2` are not base-10 integers,
yet `stoi` converts their leading integer and the read loop adds it to the
running sum without any failure. -/
theorem malformed_line_counterexample :
    isIntLine "12abc" = false ∧ isIntLine " 7" = false ∧ isIntLine "1 2" = false ∧
    readLoop ["12abc", ""] LoopState.init = (⟨[12], 0⟩, none) ∧
    readLoop [" 7", ""] LoopState.init = (⟨[7], 0⟩, none) ∧
    readLoop ["1 2", ""] LoopState.init = (⟨[1], 0⟩, none) := by
  decide

/-- C9, amended: a non-empty line that does not begin with an integer (after
optional white space and an optional sign there is no digit) makes the read
loop throw `invalid_argument` when it reaches that line, with `elves` and the
running sum as they were: the line contributes nothing, not even zero, and no
later line is read. A non-empty line that begins with the integer `v` does
not make it throw unless `v` is outside the `int` range (`out_of_range`): the
loop adds `v`, whatever follows the digits on the line. -/
theorem malformed_line_fails (line : String) (rest : List String) (st : LoopState)
    (hne : line ≠ "") :
    ((¬ ∃ v, IntPrefix line.data v) →
      readLoop (line :: rest) st = (st, some Failure.invalid_argument)) ∧
    (∀ v, IntPrefix line.data v →
      readLoop (line :: rest) st =
        if inIntRange v then readLoop rest ⟨st.elves, wrap32 (st.sum + v)⟩
        else (st, some Failure.out_of_range)) := by
  constructor
  · intro hno
    have hst : stoi line = Except.error Failure.invalid_argument := by
      by_contra hc
      exact hno (intPrefix_of_stoiChars hc)
    exact readLoop_error rest st hne hst
  · intro v hv
    have hst := stoiChars_of_intPrefix hv
    by_cases hr : inIntRange v
    · rw [if_pos hr] at hst
      rw [if_pos hr]
      exact readLoop_ok rest st hne hst
    · rw [if_neg hr] at hst
      rw [if_neg hr]
      exact readLoop_error rest st hne hst

/-- C9 amended, at the lines `abc` (no integer) and `12abc` (begins with 12). -/
theorem malformed_line_fails_witness :
    "abc" ≠ "" ∧ (¬ ∃ v, IntPrefix "abc".data v) ∧
    readLoop ("abc" :: ["5", ""]) ⟨[3], 4⟩ = (⟨[3], 4⟩, some Failure.invalid_argument) ∧
    IntPrefix "12abc".data 12 ∧
    readLoop ("12abc" :: ["5", ""]) ⟨[3], 4⟩ = (⟨[3, 21], 0⟩, none) := by
  have hno : ¬ ∃ v, IntPrefix "abc".data v := by
    rintro ⟨v, hv⟩
    have h1 := stoiChars_of_intPrefix hv
    have h2 : stoiChars "abc".data = Except.error Failure.invalid_argument := rfl
    rw [h2] at h1
    by_cases hr : inIntRange v
    · rw [if_pos hr] at h1; cases h1
    · rw [if_neg hr] at h1; cases h1
  have hpre : IntPrefix "12abc".data 12 :=
    ⟨[], [], ['1', '2'], ['a', 'b', 'c'], rfl, by simp, Or.inl rfl, by simp, by decide,
      by decide, by decide⟩
  have h12 := (malformed_line_fails "12abc" ["5", ""] ⟨[3], 4⟩ (by decide)).2 12 hpre
  refine ⟨by decide, hno,
    (malformed_line_fails "abc" ["5", ""] ⟨[3], 4⟩ (by decide)).1 hno, hpre, ?_⟩
  rw [h12]
  decide

/-- C10, as stated, fails: the file `99999999999 _ _ _` opens, its only
non-empty line is a base-10 integer and it has three empty lines, yet `stoi`
throws `out_of_range` on the first line and `Day1` prints nothing. -/
theorem two_lines_counterexample :
    (∀ l ∈ getlines "99999999999\n\n\n\n".data, l = "" ∨ isIntLine l = true) ∧
    (getlines "99999999999\n\n\n\n".data).count "" = 3 ∧
    Day1 (some "99999999999\n\n\n\n".data) = ⟨[], "", some Failure.out_of_range⟩ := by
  decide

/-- C10, amended: for every file that opens, whose non-empty lines are all
base-10 integers that fit in an `int`, and that contains at least three
empty lines, the read loop does not throw, the report does not throw, and the
output of `Day1` is exactly the two lines `Part 1: a` and `Part 2: b`, in
that order, for two `int` values `a` and `b`. -/
theorem well_formed_file_prints_two_lines (text : List Char)
    (hwf : ∀ l ∈ getlines text, l = "" ∨ (isIntLine l = true ∧ inIntRange (lineValue l)))
    (h3 : 3 ≤ (getlines text).count "") :
    (readLoop (getlines text) LoopState.init).2 = none ∧
    ∃ a b : Int, inIntRange a ∧ inIntRange b ∧
      Day1 (some text) = ⟨["Part 1: " ++ showInt a, "Part 2: " ++ showInt b], "", none⟩ := by
  obtain ⟨t, ht⟩ := readLoop_init_groups (getlines text) hwf
  have hlen : 3 ≤ ((groupsOf (getlines text)).map (fun x => wrap32 (groupSum x))).length := by
    rw [List.length_map, groupsOf_length]
    exact h3
  obtain ⟨p, c, b, a, hs, _⟩ := sort_snoc3 _ hlen
  have hrep := report_of_sort_snoc3 [] _ p c b a hs
  have ha : inIntRange a := by
    have hmem : a ∈ (groupsOf (getlines text)).map (fun x => wrap32 (groupSum x)) :=
      (sort_perm _).subset (by rw [hs]; simp)
    obtain ⟨g, _, hg⟩ := List.mem_map.mp hmem
    rw [← hg]
    exact wrap32_inIntRange _
  refine ⟨by rw [ht], a, wrap32 (a + b + c), ha, wrap32_inIntRange _, ?_⟩
  simp only [Day1, ht, hrep, List.nil_append]

/-- C10 amended, at the file `3 4 _ 10 _ 1 1 1 1 _`. -/
theorem well_formed_file_prints_two_lines_witness :
    (∀ l ∈ getlines "3\n4\n\n10\n\n1\n1\n1\n1\n\n".data,
      l = "" ∨ (isIntLine l = true ∧ inIntRange (lineValue l))) ∧
    3 ≤ (getlines "3\n4\n\n10\n\n1\n1\n1\n1\n\n".data).count "" ∧
    ((readLoop (getlines "3\n4\n\n10\n\n1\n1\n1\n1\n\n".data) LoopState.init).2 = none ∧
    ∃ a b : Int, inIntRange a ∧ inIntRange b ∧
      Day1 (some "3\n4\n\n10\n\n1\n1\n1\n1\n\n".data)
        = ⟨["Part 1: " ++ showInt a, "Part 2: " ++ showInt b], "", none⟩) :=
  ⟨by decide, by decide,
   well_formed_file_prints_two_lines "3\n4\n\n10\n\n1\n1\n1\n1\n\n".data
     (by decide) (by decide)⟩

/-- C12: the ascending sort applied to the group sum list is idempotent: for
every list of integers, sorting the sorted list gives the sorted list. -/
theorem sort_idempotent (elves : List Int) : sort (sort elves) = sort elves :=
  List.Sorted.insertionSort_eq (sort_sorted elves)

/-- C14: an empty line commits a group also when no integer line precedes it
in the group. When the lines read so far are none or end with an empty line,
the running sum is `0`, and the next empty line appends the entry `0`. Three
empty lines give the list `[0, 0, 0]`, and `Day1` prints `Part 1: 0` and
`Part 2: 0` without failure. -/
theorem empty_line_commits_zero (pre rest : List String) (st : LoopState)
    (hpre : pre = [] ∨ pre.getLast? = some "")
    (hrun : readLoop pre LoopState.init = (st, none)) :
    st.sum = 0 ∧
    readLoop (pre ++ "" :: rest) LoopState.init = readLoop rest ⟨st.elves ++ [0], 0⟩ ∧
    getlines "\n\n\n".data = ["", "", ""] ∧
    readLoop ["", "", ""] LoopState.init = (⟨[0, 0, 0], 0⟩, none) ∧
    Day1 (some "\n\n\n".data) = ⟨["Part 1: 0", "Part 2: 0"], "", none⟩ := by
  have hsum : st.sum = 0 := by
    rcases hpre with h | h
    · subst h
      rw [readLoop_nil] at hrun
      rw [← (Prod.mk.inj hrun).1]
      rfl
    · obtain ⟨q, hq⟩ := List.getLast?_eq_some_iff.mp h
      subst hq
      exact readLoop_sum_of_last_empty q LoopState.init st hrun
  refine ⟨hsum, ?_, by decide, by decide, by decide⟩
  rw [readLoop_append, hrun]
  simp only [readLoop_empty, hsum]

/-- C14 after the lines `3 _`: the next empty line appends `0`. -/
theorem empty_line_commits_zero_witness :
    (["3", ""] = [] ∨ ["3", ""].getLast? = some "") ∧
    readLoop ["3", ""] LoopState.init = (⟨[3], 0⟩, none) ∧
    readLoop (["3", ""] ++ "" :: ["4", ""]) LoopState.init = readLoop ["4", ""] ⟨[3] ++ [0], 0⟩ ∧
    groupSums ["3", "", "", "4", ""] = [3, 0, 4] :=
  ⟨by decide, by decide,
   (empty_line_commits_zero ["3", ""] ["4", ""] ⟨[3], 0⟩ (by decide) (by decide)).2.1,
   by decide⟩

/-- C16: for every group sum list with at least three entries, all
non-negative, the three largest entries `a ≥ b ≥ c` satisfy
`a ≤ a + b + c ≤ 3 * a` in exact integer arithmetic: Part 2 is at least
Part 1 and at most three times Part 1. The report prints `a` and the 32-bit
value of `a + b + c`, which is `a + b + c` whenever that sum fits in an `int`.
On the list `[-1, -1, -1]` Part 2 is `-3`, strictly less than Part 1, `-1`. -/
theorem part2_between_part1_and_triple (out : List String) (elves : List Int)
    (h3 : 3 ≤ elves.length) (hnn : ∀ x ∈ elves, 0 ≤ x) :
    (∃ a b c rest, elves.Perm (a :: b :: c :: rest) ∧ c ≤ b ∧ b ≤ a ∧ (∀ x ∈ rest, x ≤ c) ∧
      report out elves =
        ⟨out ++ ["Part 1: " ++ showInt a, "Part 2: " ++ showInt (wrap32 (a + b + c))], "", none⟩ ∧
      a ≤ a + b + c ∧ a + b + c ≤ 3 * a ∧
      (inIntRange (a + b + c) → a ≤ wrap32 (a + b + c) ∧ wrap32 (a + b + c) ≤ 3 * a)) ∧
    report [] [-1, -1, -1] = ⟨["Part 1: -1", "Part 2: -3"], "", none⟩ ∧ (-3 : Int) < -1 := by
  obtain ⟨p, c, b, a, hs, hcb, hba, hp⟩ := sort_snoc3 elves h3
  have hperm := perm_of_sort_snoc3 hs
  have hc : 0 ≤ c := hnn c (hperm.symm.subset (by simp))
  refine ⟨⟨a, b, c, p, hperm, hcb, hba, hp, report_of_sort_snoc3 out elves p c b a hs,
    by omega, by omega, ?_⟩, by decide, by decide⟩
  intro hr
  rw [wrap32_of_inIntRange hr]
  constructor <;> omega

/-- C16 at the list `[7, 10, 4, 0]`: Part 1 is `10`, Part 2 is `21`. -/
theorem part2_between_part1_and_triple_witness :
    3 ≤ ([7, 10, 4, 0] : List Int).length ∧ (∀ x ∈ ([7, 10, 4, 0] : List Int), 0 ≤ x) ∧
    ((∃ a b c rest, ([7, 10, 4, 0] : List Int).Perm (a :: b :: c :: rest) ∧ c ≤ b ∧ b ≤ a ∧
      (∀ x ∈ rest, x ≤ c) ∧
      report [] [7, 10, 4, 0] =
        ⟨[] ++ ["Part 1: " ++ showInt a, "Part 2: " ++ showInt (wrap32 (a + b + c))], "", none⟩ ∧
      a ≤ a + b + c ∧ a + b + c ≤ 3 * a ∧
      (inIntRange (a + b + c) → a ≤ wrap32 (a + b + c) ∧ wrap32 (a + b + c) ≤ 3 * a)) ∧
    report [] [-1, -1, -1] = ⟨["Part 1: -1", "Part 2: -3"], "", none⟩ ∧ (-3 : Int) < -1) ∧
    report [] [7, 10, 4, 0] = ⟨["Part 1: 10", "Part 2: 21"], "", none⟩ :=
  ⟨by decide, by decide, part2_between_part1_and_triple [] [7, 10, 4, 0] (by decide) (by decide),
   by decide⟩

/-- C17: only a line of length zero is a group boundary. A line that is not
empty never pushes to `elves`: it is passed to `stoi`, and the loop either
adds the value or stops with the state unchanged. A non-empty line made of
white space only (the `\r` a CRLF file leaves on each blank line) makes
`stoi` throw `invalid_argument`, so nothing is committed. In the CRLF file
`5 _` the lines are `5\r` and `\r`; the second one stops the loop. -/
theorem whitespace_line_is_not_boundary (line : String) (rest : List String) (st : LoopState)
    (hne : line ≠ "") (hws : ∀ c ∈ line.data, isspace c = true) :
    stoi line = Except.error Failure.invalid_argument ∧
    readLoop (line :: rest) st = (st, some Failure.invalid_argument) ∧
    (∀ (l : String) (r : List String) (s : LoopState), l ≠ "" →
      (∃ v, stoi l = Except.ok v ∧ readLoop (l :: r) s = readLoop r ⟨s.elves, wrap32 (s.sum + v)⟩) ∨
      (∃ e, stoi l = Except.error e ∧ readLoop (l :: r) s = (s, some e))) ∧
    getlines "5\r\n\r\n".data = ["5\r", "\r"] ∧
    readLoop ["5\r", "\r"] LoopState.init = (⟨[], 5⟩, some Failure.invalid_argument) ∧
    Day1 (some "5\r\n\r\n".data) = ⟨[], "", some Failure.invalid_argument⟩ := by
  have hst : stoi line = Except.error Failure.invalid_argument :=
    stoiChars_of_all_isspace line.data hws
  exact ⟨hst, readLoop_error rest st hne hst,
    fun l r s hl => readLoop_cons_nonempty l r s hl, by decide, by decide, by decide⟩

/-- C17 at the line `\r` with the state `[7]`, `3` and the lines `_ 4 _` after it. -/
theorem whitespace_line_is_not_boundary_witness :
    "\r" ≠ "" ∧ (∀ c ∈ "\r".data, isspace c = true) ∧
    readLoop ("\r" :: ["", "4", ""]) ⟨[7], 3⟩ = (⟨[7], 3⟩, some Failure.invalid_argument) :=
  ⟨by decide, by decide,
   (whitespace_line_is_not_boundary "\r" ["", "4", ""] ⟨[7], 3⟩ (by decide) (by decide)).2.1⟩

/-- C11, as stated, fails: the lines `2147483647`, `1` parse, and after them
the running sum is `-2147483648`, not the sum `2147483648` of the integer
lines after the last empty line. -/
theorem loop_invariant_counterexample :
    (∀ l ∈ ["2147483647", "1"], l = "" ∨ (isIntLine l = true ∧ inIntRange (lineValue l))) ∧
    readLoop ["2147483647", "1"] LoopState.init = (⟨[], -2147483648⟩, none) ∧
    groupSum (afterLastEmpty ["2147483647", "1"]) = 2147483648 ∧
    (readLoop ["2147483647", "1"] LoopState.init).1.sum
      ≠ groupSum (afterLastEmpty ["2147483647", "1"]) := by
  decide

/-- C11, amended: for every sequence of lines that are empty or base-10
integers fitting in an `int`, and every prefix of it, the read loop gets
through the prefix without throwing; then `elves` has as many entries as the
prefix has empty lines, those entries stay as they are, in place, in the list
built from the whole sequence, and the running sum is the sum of the integer
lines after the last empty line of the prefix reduced to 32 bits: that sum
itself when it fits in an `int`, and `0` when the prefix is empty or ends with
an empty line. Whether the sequence ends with an empty line plays no role. -/
theorem loop_invariant (lines p : List String) (hp : p <+: lines)
    (hwf : ∀ l ∈ lines, l = "" ∨ (isIntLine l = true ∧ inIntRange (lineValue l))) :
    ∃ st, readLoop p LoopState.init = (st, none) ∧
      st.elves.length = p.count "" ∧
      st.elves <+: groupSums lines ∧
      st.sum = wrap32 (groupSum (afterLastEmpty p)) ∧
      (inIntRange (groupSum (afterLastEmpty p)) → st.sum = groupSum (afterLastEmpty p)) ∧
      ((p = [] ∨ p.getLast? = some "") → st.sum = 0) := by
  obtain ⟨rest, hrest⟩ := hp
  have hwfp : ∀ l ∈ p, l = "" ∨ (isIntLine l = true ∧ inIntRange (lineValue l)) :=
    fun l hl => hwf l (by rw [← hrest]; exact List.mem_append_left _ hl)
  have hst := readLoop_state p hwfp
  refine ⟨_, hst, ?_, ?_, rfl, ?_, ?_⟩
  · simp only [List.length_map, groupsOf_length]
  · have := readLoop_elves_mono rest
      ⟨(groupsOf p).map (fun x => wrap32 (groupSum x)), wrap32 (groupSum (afterLastEmpty p))⟩
    unfold groupSums
    rw [← hrest, readLoop_append, hst]
    exact this
  · intro hr
    exact wrap32_of_inIntRange hr
  · intro hend
    rcases hend with h | h
    · subst h
      rfl
    · obtain ⟨q, hq⟩ := List.getLast?_eq_some_iff.mp h
      rw [hq] at hst ⊢
      exact readLoop_sum_of_last_empty q LoopState.init _ hst

/-- C11 amended, at the prefix `3 4 _ 10` of the lines `3 4 _ 10 _ 1 1`. -/
theorem loop_invariant_witness :
    ["3", "4", "", "10"] <+: ["3", "4", "", "10", "", "1", "1"] ∧
    (∀ l ∈ ["3", "4", "", "10", "", "1", "1"],
      l = "" ∨ (isIntLine l = true ∧ inIntRange (lineValue l))) ∧
    (∃ st, readLoop ["3", "4", "", "10"] LoopState.init = (st, none) ∧
      st.elves.length = ["3", "4", "", "10"].count "" ∧
      st.elves <+: groupSums ["3", "4", "", "10", "", "1", "1"] ∧
      st.sum = wrap32 (groupSum (afterLastEmpty ["3", "4", "", "10"])) ∧
      (inIntRange (groupSum (afterLastEmpty ["3", "4", "", "10"])) →
        st.sum = groupSum (afterLastEmpty ["3", "4", "", "10"])) ∧
      ((["3", "4", "", "10"] = [] ∨ ["3", "4", "", "10"].getLast? = some "") → st.sum = 0)) ∧
    readLoop ["3", "4", "", "10"] LoopState.init = (⟨[7], 10⟩, none) ∧
    groupSums ["3", "4", "", "10", "", "1", "1"] = [7, 10] ∧
    inIntRange (groupSum (afterLastEmpty ["3", "4", "", "10"])) :=
  ⟨by decide, by decide,
   loop_invariant ["3", "4", "", "10", "", "1", "1"] ["3", "4", "", "10"] (by decide) (by decide),
   by decide, by decide, by decide⟩

/-- C13: the report depends only on the multiset of group sums. For two
lists that are permutations of each other the report gives the same
outcome: the same lines, hence the same Part 1 and Part 2 values, or the
same failure. So for two files that consist of the same groups, each ended
by an empty line, in a different order (followed by the same lines without
an empty line), `Day1` prints the same; the two runs are equal altogether
unless a line fails to parse, in which case both print nothing. -/
theorem report_depends_on_multiset (out : List String) (l1 l2 : List Int) (h : l1.Perm l2) :
    report out l1 = report out l2 ∧
    ∀ (gs1 gs2 : List (List String)) (T : List String) (text1 text2 : List Char),
      gs1.Perm gs2 → (∀ g ∈ gs1, "" ∉ g) → (∀ t ∈ T, t ≠ "") →
      getlines text1 = (gs1.map (fun g => g ++ [""])).flatten ++ T →
      getlines text2 = (gs2.map (fun g => g ++ [""])).flatten ++ T →
      (Day1 (some text1)).lines = (Day1 (some text2)).lines ∧
      (Day1 (some text1)).pending = (Day1 (some text2)).pending ∧
      ((readLoop (getlines text1) LoopState.init).2 = none →
        Day1 (some text1) = Day1 (some text2)) := by
  refine ⟨report_eq_of_sort_eq out (sort_eq_of_perm h), ?_⟩
  intro gs1 gs2 T text1 text2 hperm hno hT h1 h2
  have hne1 : ∀ g ∈ gs1, ∀ l ∈ g, l ≠ "" := fun g hg l hl he => hno g hg (he ▸ hl)
  have hne2 : ∀ g ∈ gs2, ∀ l ∈ g, l ≠ "" := fun g hg => hne1 g (hperm.symm.subset hg)
  have hiff : (∀ l ∈ getlines text1, l ≠ "" → ∃ v, stoi l = Except.ok v) ↔
      (∀ l ∈ getlines text2, l ≠ "" → ∃ v, stoi l = Except.ok v) := by
    rw [h1, h2]
    constructor
    · intro hall l hl
      exact hall l (mem_blocks_of_perm T hperm.symm l hl)
    · intro hall l hl
      exact hall l (mem_blocks_of_perm T hperm l hl)
  by_cases hok : ∀ l ∈ getlines text1, l ≠ "" → ∃ v, stoi l = Except.ok v
  · have e1 := Day1_of_blocks gs1 T text1 h1 hne1 hT hok
    have e2 := Day1_of_blocks gs2 T text2 h2 hne2 hT (hiff.mp hok)
    have e : Day1 (some text1) = Day1 (some text2) := by
      rw [e1, e2]
      exact report_eq_of_sort_eq [] (sort_eq_of_perm (hperm.map blockSum))
    exact ⟨by rw [e], by rw [e], fun _ => e⟩
  · obtain ⟨e1, he1⟩ := Day1_of_bad_line text1 hok
    obtain ⟨e2, he2⟩ := Day1_of_bad_line text2 (fun hc => hok (hiff.mpr hc))
    refine ⟨by rw [he1, he2], by rw [he1, he2], ?_⟩
    intro hnone
    exact absurd ((readLoop_no_error_iff _ _).mp hnone) hok

/-- C13 at the lists `[7, 10, 4]` and `[4, 7, 10]`, and at the files
`3 4 _ 10 _ 4 _ 1` and `4 _ 3 4 _ 10 _ 1`. -/
theorem report_depends_on_multiset_witness :
    ([7, 10, 4] : List Int).Perm [4, 7, 10] ∧
    report [] [7, 10, 4] = report [] [4, 7, 10] ∧
    report [] [4, 7, 10] = ⟨["Part 1: 10", "Part 2: 21"], "", none⟩ ∧
    Day1 (some "3\n4\n\n10\n\n4\n\n1\n".data) = Day1 (some "4\n\n3\n4\n\n10\n\n1\n".data) := by
  have hp : ([7, 10, 4] : List Int).Perm [4, 7, 10] := by decide
  have hg : ([["3", "4"], ["10"], ["4"]] : List (List String)).Perm
      [["4"], ["3", "4"], ["10"]] := by decide
  have h := report_depends_on_multiset [] [7, 10, 4] [4, 7, 10] hp
  exact ⟨hp, h.1, by decide,
    (h.2 [["3", "4"], ["10"], ["4"]] [["4"], ["3", "4"], ["10"]] ["1"]
      "3\n4\n\n10\n\n4\n\n1\n".data "4\n\n3\n4\n\n10\n\n1\n".data
      hg (by decide) (by decide) (by decide) (by decide)).2.2 (by decide)⟩

/-- C15: with `int` as a 32-bit two's complement integer, for every file
whose lines are empty or base-10 integers with a value in the `int` range,
in which every partial sum of a group and every partial sum of the three
largest exact group sums (largest first) lies in the `int` range: the read
loop does not throw and the group sum list is the list of the exact sums of
the groups; with at least one group the Part 1 value is the largest exact
group sum; with at least three groups `Day1` prints that value and the exact
sum of the three largest. Outside the range condition the results differ:
the lines `2147483647`, `1`, empty give the entry `-2147483648` for the exact
sum `2147483648`, and three groups of `2147483647` give `Part 2: 2147483645`
for the exact sum `6442450941`. -/
theorem wrapped_equals_exact_in_range (text : List Char)
    (hwf : ∀ l ∈ getlines text, l = "" ∨ (isIntLine l = true ∧ inIntRange (lineValue l)))
    (hgroups : ∀ g ∈ groupsOf (getlines text), ∀ p, p <+: g → inIntRange (groupSum p))
    (htop : ∀ p, p <+: topThree ((groupsOf (getlines text)).map groupSum) →
      inIntRange p.sum) :
    (readLoop (getlines text) LoopState.init).2 = none ∧
    groupSums (getlines text) = (groupsOf (getlines text)).map groupSum ∧
    (1 ≤ (getlines text).count "" →
      ∃ a, (topThree ((groupsOf (getlines text)).map groupSum)).head? = some a ∧
        ["Part 1: " ++ showInt a] <+: (Day1 (some text)).lines) ∧
    (3 ≤ (getlines text).count "" →
      ∃ a b c, topThree ((groupsOf (getlines text)).map groupSum) = [a, b, c] ∧
        Day1 (some text) =
          ⟨["Part 1: " ++ showInt a, "Part 2: " ++ showInt (a + b + c)], "", none⟩) ∧
    (groupSums ["2147483647", "1", ""] = [-2147483648] ∧
      (groupsOf ["2147483647", "1", ""]).map groupSum = [2147483648] ∧
      ¬ inIntRange (groupSum ["2147483647", "1"])) ∧
    (Day1 (some "2147483647\n\n2147483647\n\n2147483647\n\n".data)
        = ⟨["Part 1: 2147483647", "Part 2: 2147483645"], "", none⟩ ∧
      (topThree [2147483647, 2147483647, 2147483647]).sum = 6442450941 ∧
      ¬ inIntRange (topThree [2147483647, 2147483647, 2147483647]).sum) := by
  obtain ⟨t, ht⟩ := readLoop_init_groups (getlines text) hwf
  have hmap : (groupsOf (getlines text)).map (fun x => wrap32 (groupSum x))
      = (groupsOf (getlines text)).map groupSum :=
    List.map_congr_left (fun g hg => wrap32_of_inIntRange (hgroups g hg g (List.prefix_refl g)))
  rw [hmap] at ht
  have hday := Day1_of_loop_ok ht
  have hlen : ((groupsOf (getlines text)).map groupSum).length = (getlines text).count "" := by
    rw [List.length_map, groupsOf_length]
  refine ⟨by rw [ht], by rw [groupSums, ht], ?_, ?_, by decide, by decide⟩
  · intro h1
    obtain ⟨p, a, hs, _⟩ := sort_snoc1 ((groupsOf (getlines text)).map groupSum) (by omega)
    refine ⟨a, topThree_head_of_sort_snoc1 hs, ?_⟩
    rw [hday]
    have := report_lines_start [] _ p a hs
    simpa using this
  · intro h3
    obtain ⟨p, c, b, a, hs, _⟩ := sort_snoc3 ((groupsOf (getlines text)).map groupSum) (by omega)
    have htt := topThree_of_sort_snoc3 hs
    have hr : inIntRange (a + b + c) := by
      have := htop [a, b, c] (by rw [htt])
      simpa [add_assoc] using this
    refine ⟨a, b, c, htt, ?_⟩
    rw [hday, report_of_sort_snoc3 [] _ p c b a hs, wrap32_of_inIntRange hr]
    rfl

/-- C15 at the file `3 4 _ 10 _ 4 _`: the list is `[7, 10, 4]`, the three
largest are `10, 7, 4`, and `Day1` prints `10` and `21`. -/
theorem wrapped_equals_exact_in_range_witness :
    (∀ l ∈ getlines "3\n4\n\n10\n\n4\n\n".data,
      l = "" ∨ (isIntLine l = true ∧ inIntRange (lineValue l))) ∧
    (∀ g ∈ groupsOf (getlines "3\n4\n\n10\n\n4\n\n".data), ∀ p, p <+: g →
      inIntRange (groupSum p)) ∧
    (∀ p, p <+: topThree ((groupsOf (getlines "3\n4\n\n10\n\n4\n\n".data)).map groupSum) →
      inIntRange p.sum) ∧
    groupSums (getlines "3\n4\n\n10\n\n4\n\n".data)
      = (groupsOf (getlines "3\n4\n\n10\n\n4\n\n".data)).map groupSum ∧
    (∃ a b c, topThree ((groupsOf (getlines "3\n4\n\n10\n\n4\n\n".data)).map groupSum)
        = [a, b, c] ∧
      Day1 (some "3\n4\n\n10\n\n4\n\n".data) =
        ⟨["Part 1: " ++ showInt a, "Part 2: " ++ showInt (a + b + c)], "", none⟩) ∧
    topThree ((groupsOf (getlines "3\n4\n\n10\n\n4\n\n".data)).map groupSum) = [10, 7, 4] := by
  have hwf : ∀ l ∈ getlines "3\n4\n\n10\n\n4\n\n".data,
      l = "" ∨ (isIntLine l = true ∧ inIntRange (lineValue l)) := by decide
  have hg : ∀ g ∈ groupsOf (getlines "3\n4\n\n10\n\n4\n\n".data), ∀ p, p <+: g →
      inIntRange (groupSum p) := by
    have hd : ∀ g ∈ groupsOf (getlines "3\n4\n\n10\n\n4\n\n".data), ∀ p ∈ g.inits,
        inIntRange (groupSum p) := by decide
    exact fun g hg p hp => hd g hg p ((List.mem_inits p g).mpr hp)
  have ht : ∀ p,
      p <+: topThree ((groupsOf (getlines "3\n4\n\n10\n\n4\n\n".data)).map groupSum) →
      inIntRange p.sum := by
    have hd : ∀ p ∈
        (topThree ((groupsOf (getlines "3\n4\n\n10\n\n4\n\n".data)).map groupSum)).inits,
        inIntRange p.sum := by decide
    exact fun p hp => hd p ((List.mem_inits p _).mpr hp)
  have h := wrapped_equals_exact_in_range "3\n4\n\n10\n\n4\n\n".data hwf hg ht
  exact ⟨hwf, hg, ht, h.2.1, h.2.2.2.1 (by decide), by decide⟩

end Aoc
